import Mathlib

/-!
Verification development for the docflow document-extraction backend.

The definitions below are a shallow embedding of the Python sources:

* `app/services/llm_service.py` — reconciliation of LLM responses against a
  requested field schema (`_parse_extracted_fields`, `_safe_parse_json`,
  `_extract_json_object`, `_find_coordinate_for_value`,
  `_score_document_types_simple`, `_parse_classification`,
  `classify_document_type`, `extract_fields`);
* `app/services/folder_trigger_service.py` — the folder trigger scanner and
  the synchronous classification wrapper;
* `app/crud/processing_run.py` — the review status operations;
* `app/tasks/document_tasks.py` — the Celery retry loop.

Python values flowing through the reconciliation code are modelled by the
`JVal` type; numbers are represented by rationals.  Python exceptions are
modelled by the `Except PyExc` monad; `PyExc.isCaught` tells whether the
exception class is a member of the tuple caught around the body of
`_parse_extracted_fields`.
-/

namespace Docflow

/-- Python exception classes that the modelled code can raise. -/
inductive PyExc where
  | typeError
  | valueError
  | keyError
  | attributeError
deriving DecidableEq, Repr

/-- Whether the exception class belongs to the tuple
`(json.JSONDecodeError, ValueError, KeyError, TypeError)` caught at the end of
`_parse_extracted_fields`.  `AttributeError` is outside that tuple. -/
def PyExc.isCaught : PyExc → Bool
  | .typeError => true
  | .valueError => true
  | .keyError => true
  | .attributeError => false

/-- Characters stripped by Python `str.strip()` with no argument
(the ASCII whitespace characters). -/
def pyIsSpace (c : Char) : Bool :=
  c = ' ' || c = '\t' || c = '\n' || c = '\r' || c = Char.ofNat 11 || c = Char.ofNat 12

/-- Lower-case one character the way Python `str.lower()` does on the
alphabets this application uses (ASCII and Russian Cyrillic). -/
def pyCharLower (c : Char) : Char :=
  if 'A' ≤ c && c ≤ 'Z' then Char.ofNat (c.toNat + 32)
  else if Char.ofNat 0x410 ≤ c && c ≤ Char.ofNat 0x42F then Char.ofNat (c.toNat + 32)
  else if c = Char.ofNat 0x401 then Char.ofNat 0x451
  else c

/-- Python `str.lower()`. -/
def pyLower (s : String) : String :=
  ⟨s.data.map pyCharLower⟩

/-- Python `str.strip()` (no argument): remove leading and trailing
whitespace. -/
def pyStrip (s : String) : String :=
  ⟨((s.data.dropWhile pyIsSpace).reverse.dropWhile pyIsSpace).reverse⟩

/-- Accumulating splitter for `pySplitWs`. -/
def splitWsGo : List Char → List Char → List String
  | [], acc => if acc.isEmpty then [] else [⟨acc.reverse⟩]
  | c :: rest, acc =>
    if pyIsSpace c then
      if acc.isEmpty then splitWsGo rest [] else ⟨acc.reverse⟩ :: splitWsGo rest []
    else splitWsGo rest (c :: acc)

/-- Python `str.split()` with no argument: split on whitespace runs and drop
empty pieces. -/
def pySplitWs (s : String) : List String :=
  splitWsGo s.data []

/-- Occurrence of `pat` as a contiguous sublist of `cs`. -/
def containsSub (pat : List Char) : List Char → Bool
  | [] => pat.isEmpty
  | c :: rest => pat.isPrefixOf (c :: rest) || containsSub pat rest

/-- Python `sub in s` on strings: substring containment.  The empty string is
contained in every string. -/
def strIn (sub s : String) : Bool :=
  containsSub sub.data s.data

/-- Python `dict` update semantics on an association list: replacing the value
in place when the key is present, appending otherwise.  Iteration order of a
Python dict is insertion order of the first occurrence of each key. -/
def dictInsert {β : Type} (d : List (String × β)) (k : String) (v : β) : List (String × β) :=
  if d.any (fun kv => kv.1 = k) then
    d.map (fun kv => if kv.1 = k then (k, v) else kv)
  else
    d ++ [(k, v)]

/-- Python `dict.get` on an association list built by `dictInsert` (keys are
unique, so the first match is the only match). -/
def dictLookup {β : Type} (d : List (String × β)) (k : String) : Option β :=
  (d.find? (fun kv => kv.1 = k)).map (fun kv => kv.2)

/-- Values decoded from JSON / Python literals flowing through the
reconciliation code.  Numbers are modelled by rationals. -/
inductive JVal where
  | jnull
  | jbool (b : Bool)
  | jnum (q : ℚ)
  | jstr (s : String)
  | jarr (xs : List JVal)
  | jobj (kvs : List (String × JVal))

namespace JVal

/-- Structural boolean equality on `JVal`, mirroring Python `==` between
decoded JSON values (`True == 1` holds in Python because `bool` is an `int`
subclass). -/
def pyEq : JVal → JVal → Bool
  | .jnull, .jnull => true
  | .jbool a, .jbool b => a = b
  | .jbool a, .jnum q => (if a then (1 : ℚ) else 0) = q
  | .jnum q, .jbool a => q = (if a then (1 : ℚ) else 0)
  | .jnum a, .jnum b => a = b
  | .jstr a, .jstr b => a = b
  | .jarr a, .jarr b => pyEqList a b
  | .jobj a, .jobj b => pyEqObj a b
  | _, _ => false
where
  pyEqList : List JVal → List JVal → Bool
    | [], [] => true
    | x :: xs, y :: ys => pyEq x y && pyEqList xs ys
    | _, _ => false
  pyEqObj : List (String × JVal) → List (String × JVal) → Bool
    | [], [] => true
    | (k, x) :: xs, (k', y) :: ys => k = k' && pyEq x y && pyEqObj xs ys
    | _, _ => false

/-- Python truthiness of a decoded value: `None`, `False`, `0`, `""`, `[]`
and `{}` are falsy. -/
def pyTruthy : JVal → Bool
  | .jnull => false
  | .jbool b => b
  | .jnum q => q ≠ 0
  | .jstr s => s ≠ ""
  | .jarr xs => !xs.isEmpty
  | .jobj kvs => !kvs.isEmpty

/-- Whether the value is a Python `dict`. -/
def isObj : JVal → Bool
  | .jobj _ => true
  | _ => false

/-- Python `dict.get(key)` (default `None`) on a decoded object; `jnull` on a
missing key.  Only meaningful for `jobj` values — callers that invoke `.get`
on other shapes are modelled with an explicit `AttributeError`. -/
def jget : JVal → String → JVal
  | .jobj kvs, k => (dictLookup kvs k).getD .jnull
  | _, _ => .jnull

/-- Python `dict.get(key, default)` on a decoded object. -/
def jgetD : JVal → String → JVal → JVal
  | .jobj kvs, k, dflt => (dictLookup kvs k).getD dflt
  | _, _, dflt => dflt

end JVal

/-- Decimal string rendering of a rational whose denominator divides a power
of ten (the only rationals produced by the JSON/literal parsers below); other
denominators fall back to a fraction rendering.  Used by `pyStr` for numbers. -/
def ratDecimalString (q : ℚ) : String :=
  if q.den = 1 then toString q.num
  else
    match (List.range 40).find? (fun k => q.den ∣ 10 ^ k) with
    | some k =>
      let scaled : ℤ := q.num * ((10 ^ k : ℤ) / (q.den : ℤ))
      let sign := if scaled < 0 then "-" else ""
      let digits := toString scaled.natAbs
      let digits := if digits.length ≤ k then
          String.mk (List.replicate (k + 1 - digits.length) '0') ++ digits
        else digits
      let whole := digits.take (digits.length - k)
      let frac := digits.drop (digits.length - k)
      sign ++ whole ++ "." ++ frac
    | none => toString q.num ++ "/" ++ toString q.den

mutual

/-- Approximation of Python `repr` for decoded values, used for the elements
of lists and dicts rendered by `str`. -/
def pyRepr : JVal → String
  | .jnull => "None"
  | .jbool b => if b then "True" else "False"
  | .jnum q => ratDecimalString q
  | .jstr s =>
    if s.contains '\x27' && !(s.contains '"') then
      "\"" ++ s ++ "\""
    else
      "\x27" ++ String.join (s.data.map (fun c =>
        if c = '\x27' then "\\\x27" else if c = '\\' then "\\\\" else String.singleton c)) ++ "\x27"
  | .jarr xs => "[" ++ String.intercalate ", " (pyReprList xs) ++ "]"
  | .jobj kvs => "\x7b" ++ String.intercalate ", " (pyReprObj kvs) ++ "\x7d"

def pyReprList : List JVal → List String
  | [] => []
  | x :: xs => pyRepr x :: pyReprList xs

def pyReprObj : List (String × JVal) → List String
  | [] => []
  | (k, v) :: kvs => (pyRepr (.jstr k) ++ ": " ++ pyRepr v) :: pyReprObj kvs

end

/-- Python `str(...)` of a decoded value. -/
def pyStr : JVal → String
  | .jstr s => s
  | .jnull => "None"
  | .jbool b => if b then "True" else "False"
  | .jnum q => ratDecimalString q
  | v => pyRepr v

/-- Normalisation applied throughout `_parse_extracted_fields` to names
coming from the model response: `str(x).lower().strip()`. -/
def normName (v : JVal) : String :=
  pyStrip (pyLower (pyStr v))

/-- Python iteration `for x in v`: lists yield their elements, strings yield
their characters, dicts yield their keys; other shapes raise `TypeError`. -/
def iterElems : JVal → Except PyExc (List JVal)
  | .jarr xs => .ok xs
  | .jstr s => .ok (s.data.map (fun c => .jstr (String.singleton c)))
  | .jobj kvs => .ok (kvs.map (fun kv => .jstr kv.1))
  | _ => .error .typeError

/-- Parse the decimal body of a float string: digits, optional point,
optional exponent.  Returns the rational value. -/
def parseFloatBody (cs : List Char) : Option ℚ :=
  let intDigits := cs.takeWhile Char.isDigit
  let rest := cs.drop intDigits.length
  let (fracDigits, rest) :=
    match rest with
    | '.' :: more => (more.takeWhile Char.isDigit, more.drop (more.takeWhile Char.isDigit).length)
    | _ => ([], rest)
  if intDigits = [] && fracDigits = [] then none
  else
    let mantissa : ℚ :=
      ((intDigits ++ fracDigits).foldl (fun a c => a * 10 + (c.toNat - '0'.toNat)) 0 : ℕ)
    let base : ℚ := mantissa / (10 ^ fracDigits.length : ℕ)
    match rest with
    | [] => some base
    | e :: more =>
      if e = 'e' || e = 'E' then
        let (neg, ds) := match more with
          | '-' :: ds => (true, ds)
          | '+' :: ds => (false, ds)
          | ds => (false, ds)
        if ds ≠ [] && ds.all Char.isDigit then
          let ex : ℕ := ds.foldl (fun a c => a * 10 + (c.toNat - '0'.toNat)) 0
          some (if neg then base / (10 ^ ex : ℕ) else base * (10 ^ ex : ℕ))
        else none
      else none

/-- Python `float(str)` on the decimal forms the application encounters;
unsupported spellings are modelled as a `ValueError`. -/
def parseFloatString (s : String) : Option ℚ :=
  let cs := (pyStrip s).data
  match cs with
  | '-' :: rest => (parseFloatBody rest).map Neg.neg
  | '+' :: rest => parseFloatBody rest
  | _ => parseFloatBody cs

/-- Python `float(x)` as used on `confidence` values: numbers and bools
convert, numeric strings parse, everything else raises. -/
def pyFloat : JVal → Except PyExc ℚ
  | .jnum q => .ok q
  | .jbool b => .ok (if b then 1 else 0)
  | .jstr s =>
    match parseFloatString s with
    | some q => .ok q
    | none => .error .valueError
  | _ => .error .typeError

/-! ### `json.loads`, `ast.literal_eval` and `_safe_parse_json` -/

/-- JSON whitespace. -/
def jsonWs (c : Char) : Bool :=
  c = ' ' || c = '\t' || c = '\n' || c = '\r'

def skipWs (cs : List Char) : List Char :=
  cs.dropWhile jsonWs

/-- Parse the escape sequences of a JSON string literal. -/
def parseJsonEscape (cs : List Char) : Option (Char × List Char) :=
  match cs with
    | '"' :: rest => some ('"', rest)
    | '\\' :: rest => some ('\\', rest)
    | '/' :: rest => some ('/', rest)
    | 'b' :: rest => some (Char.ofNat 8, rest)
    | 'f' :: rest => some (Char.ofNat 12, rest)
    | 'n' :: rest => some ('\n', rest)
    | 'r' :: rest => some ('\r', rest)
    | 't' :: rest => some ('\t', rest)
    | 'u' :: a :: b :: c :: d :: rest =>
      if [a, b, c, d].all (fun x => x.isDigit || ('a' ≤ x && x ≤ 'f') || ('A' ≤ x && x ≤ 'F')) then
        let hex (x : Char) : ℕ :=
          if x.isDigit then x.toNat - '0'.toNat
          else if 'a' ≤ x && x ≤ 'f' then x.toNat - 'a'.toNat + 10
          else x.toNat - 'A'.toNat + 10
        some (Char.ofNat ([a, b, c, d].foldl (fun n x => n * 16 + hex x) 0), rest)
      else none
    | _ => none

/-- Parse the body of a JSON string literal after the opening quote, with the
given closing quote character.  Rejects raw control characters, as
`json.loads` does in strict mode. -/
def parseStringBody (quote : Char) : Nat → List Char → Option (String × List Char)
  | 0, _ => none
  | _ + 1, [] => none
  | fuel + 1, c :: rest =>
    if c = quote then some ("", rest)
    else if c = '\\' then
      match parseJsonEscape rest with
      | some (e, rest') =>
        (parseStringBody quote fuel rest').map (fun (s, r) => (String.singleton e ++ s, r))
      | none => none
    else if c.toNat < 32 then none
    else (parseStringBody quote fuel rest).map (fun (s, r) => (String.singleton c ++ s, r))

/-- Parse a JSON number per the JSON grammar (`-? int frac? exp?`, no leading
zeros). -/
def parseJsonNumber (cs : List Char) : Option (ℚ × List Char) :=
  let (neg, cs') := match cs with
    | '-' :: rest => (true, rest)
    | _ => (false, cs)
  let intDigits := cs'.takeWhile Char.isDigit
  if intDigits = [] then none
  else if intDigits.length > 1 && intDigits.head? = some '0' then none
  else
    let rest := cs'.drop intDigits.length
    let (fracDigits, rest) :=
      match rest with
      | '.' :: more =>
        let fd := more.takeWhile Char.isDigit
        if fd = [] then ([], '.' :: more) else (fd, more.drop fd.length)
      | _ => ([], rest)
    let (expPart, rest) :=
      match rest with
      | e :: more =>
        if e = 'e' || e = 'E' then
          let (sgn, ds0) := match more with
            | '-' :: ds => ((-1 : ℤ), ds)
            | '+' :: ds => ((1 : ℤ), ds)
            | ds => ((1 : ℤ), ds)
          let ds := ds0.takeWhile Char.isDigit
          if ds = [] then (none, e :: more)
          else (some (sgn * (ds.foldl (fun (a : ℕ) (c : Char) => a * 10 + (c.toNat - '0'.toNat)) 0 : ℕ)), ds0.drop ds.length)
        else (none, e :: more)
      | [] => (none, [])
    let mantissa : ℚ := ((intDigits ++ fracDigits).foldl (fun (a : ℕ) (c : Char) => a * 10 + (c.toNat - '0'.toNat)) 0 : ℕ)
    let base : ℚ := mantissa / (10 ^ fracDigits.length : ℕ)
    let withExp : ℚ := match expPart with
      | some e => if e < 0 then base / (10 ^ e.natAbs : ℕ) else base * (10 ^ e.natAbs : ℕ)
      | none => base
    some ((if neg then -withExp else withExp), rest)

mutual

/-- One JSON value; fuel-driven recursion. -/
def parseJValue : Nat → List Char → Option (JVal × List Char)
  | 0, _ => none
  | fuel + 1, cs =>
    match skipWs cs with
    | [] => none
    | c :: rest =>
      if c = 'n' then
        match c :: rest with
        | 'n' :: 'u' :: 'l' :: 'l' :: r => some (.jnull, r)
        | _ => none
      else if c = 't' then
        match c :: rest with
        | 't' :: 'r' :: 'u' :: 'e' :: r => some (.jbool true, r)
        | _ => none
      else if c = 'f' then
        match c :: rest with
        | 'f' :: 'a' :: 'l' :: 's' :: 'e' :: r => some (.jbool false, r)
        | _ => none
      else if c = '"' then
        (parseStringBody '"' (rest.length + 1) rest).map (fun (s, r) => (.jstr s, r))
      else if c = '[' then
        match skipWs rest with
        | ']' :: r => some (.jarr [], r)
        | r => (parseJItems fuel r).map (fun (xs, r') => (.jarr xs, r'))
      else if c = '\x7b' then
        match skipWs rest with
        | '\x7d' :: r => some (.jobj [], r)
        | r =>
          (parseJMembers fuel r).map (fun (kvs, r') =>
            (.jobj (kvs.foldl (fun d kv => dictInsert d kv.1 kv.2) []), r'))
      else
        (parseJsonNumber (c :: rest)).map (fun (q, r) => (.jnum q, r))

/-- Comma-separated JSON array items up to `]`. -/
def parseJItems : Nat → List Char → Option (List JVal × List Char)
  | 0, _ => none
  | fuel + 1, cs => do
    let (v, rest) ← parseJValue fuel cs
    match skipWs rest with
    | ',' :: r => (parseJItems fuel r).map (fun (xs, r') => (v :: xs, r'))
    | ']' :: r => some ([v], r)
    | _ => none

/-- Comma-separated JSON object members up to the closing brace, in source
order; the caller folds them with `dictInsert` so duplicate keys keep the
last value, as `json.loads` does. -/
def parseJMembers : Nat → List Char → Option (List (String × JVal) × List Char)
  | 0, _ => none
  | fuel + 1, cs =>
    match skipWs cs with
    | '"' :: rest => do
      let (k, rest) ← parseStringBody '"' (rest.length + 1) rest
      match skipWs rest with
      | ':' :: r => do
        let (v, rest') ← parseJValue fuel r
        match skipWs rest' with
        | ',' :: r' => (parseJMembers fuel r').map (fun (kvs, r'') => ((k, v) :: kvs, r''))
        | '\x7d' :: r' => some ([(k, v)], r')
        | _ => none
      | _ => none
    | _ => none

end

/-- `json.loads`: the whole string must be one JSON value, surrounded only by
whitespace. -/
def jsonLoads (s : String) : Option JVal :=
  match parseJValue (3 * s.length + 9) s.data with
  | some (v, rest) => if skipWs rest = [] then some v else none
  | none => none

/-- Body of a Python string literal (for `ast.literal_eval`): `\'`, `\"`,
`\\`, `\n`, `\r`, `\t` are decoded, an unknown escape keeps the backslash. -/
def parsePyStringBody (quote : Char) : Nat → List Char → Option (String × List Char)
  | 0, _ => none
  | _ + 1, [] => none
  | fuel + 1, c :: rest =>
    if c = quote then some ("", rest)
    else if c = '\\' then
      match rest with
      | [] => none
      | e :: rest' =>
        let dec : List Char :=
          if e = 'n' then ['\n'] else if e = 't' then ['\t'] else if e = 'r' then ['\r']
          else if e = '\\' then ['\\'] else if e = '\x27' then ['\x27'] else if e = '"' then ['"']
          else ['\\', e]
        (parsePyStringBody quote fuel rest').map (fun (s, r) => (String.mk dec ++ s, r))
    else (parsePyStringBody quote fuel rest).map (fun (s, r) => (String.singleton c ++ s, r))

/-- Length of the leading number body (digits, point, exponent) of a char
list; used to split a Python numeric literal from what follows it. -/
def numBodyLength (cs : List Char) : Nat :=
  let intDigits := cs.takeWhile Char.isDigit
  let rest := cs.drop intDigits.length
  let (fracLen, rest) :=
    match rest with
    | '.' :: more => ((more.takeWhile Char.isDigit).length + 1, more.drop (more.takeWhile Char.isDigit).length)
    | _ => (0, rest)
  let expLen :=
    match rest with
    | e :: more =>
      if e = 'e' || e = 'E' then
        match more with
        | s :: ds =>
          if s = '-' || s = '+' then
            let n := (ds.takeWhile Char.isDigit).length
            if n = 0 then 0 else n + 2
          else
            let n := ((s :: ds).takeWhile Char.isDigit).length
            if n = 0 then 0 else n + 1
        | [] => 0
      else 0
    | [] => 0
  intDigits.length + fracLen + expLen

mutual

/-- One Python literal (for `ast.literal_eval`): `None`/`True`/`False`,
signed decimal numbers, single- or double-quoted strings, lists, and dicts
with string keys.  Other literal forms (tuples, sets, bytes, non-string dict
keys, underscored or non-decimal numbers) are modelled as parse failures. -/
def parsePyValue : Nat → List Char → Option (JVal × List Char)
  | 0, _ => none
  | fuel + 1, cs =>
    match skipWs cs with
    | [] => none
    | c :: rest =>
      if c = 'N' then
        match c :: rest with
        | 'N' :: 'o' :: 'n' :: 'e' :: r => some (.jnull, r)
        | _ => none
      else if c = 'T' then
        match c :: rest with
        | 'T' :: 'r' :: 'u' :: 'e' :: r => some (.jbool true, r)
        | _ => none
      else if c = 'F' then
        match c :: rest with
        | 'F' :: 'a' :: 'l' :: 's' :: 'e' :: r => some (.jbool false, r)
        | _ => none
      else if c = '"' || c = '\x27' then
        (parsePyStringBody c (rest.length + 1) rest).map (fun (s, r) => (.jstr s, r))
      else if c = '[' then
        match skipWs rest with
        | ']' :: r => some (.jarr [], r)
        | r => (parsePyItems fuel r).map (fun (xs, r') => (.jarr xs, r'))
      else if c = '\x7b' then
        match skipWs rest with
        | '\x7d' :: r => some (.jobj [], r)
        | r =>
          (parsePyMembers fuel r).map (fun (kvs, r') =>
            (.jobj (kvs.foldl (fun d kv => dictInsert d kv.1 kv.2) []), r'))
      else if c = '-' then
        let body := numBodyLength rest
        (parseFloatBody (rest.take body)).map (fun q => (.jnum (-q), rest.drop body))
      else if c = '+' then
        let body := numBodyLength rest
        (parseFloatBody (rest.take body)).map (fun q => (.jnum q, rest.drop body))
      else
        let body := numBodyLength (c :: rest)
        (parseFloatBody ((c :: rest).take body)).map (fun q => (.jnum q, (c :: rest).drop body))

/-- Comma-separated Python list items up to `]` (a trailing comma is
allowed, as in Python). -/
def parsePyItems : Nat → List Char → Option (List JVal × List Char)
  | 0, _ => none
  | fuel + 1, cs => do
    let (v, rest) ← parsePyValue fuel cs
    match skipWs rest with
    | ',' :: r =>
      match skipWs r with
      | ']' :: r' => some ([v], r')
      | r' => (parsePyItems fuel r').map (fun (xs, r'') => (v :: xs, r''))
    | ']' :: r => some ([v], r)
    | _ => none

/-- Comma-separated Python dict members (string keys only) up to the closing
brace, in source order. -/
def parsePyMembers : Nat → List Char → Option (List (String × JVal) × List Char)
  | 0, _ => none
  | fuel + 1, cs =>
    match skipWs cs with
    | q :: rest =>
      if q = '"' || q = '\x27' then do
        let (k, rest) ← parsePyStringBody q (rest.length + 1) rest
        match skipWs rest with
        | ':' :: r => do
          let (v, rest') ← parsePyValue fuel r
          match skipWs rest' with
          | ',' :: r' =>
            match skipWs r' with
            | '\x7d' :: r'' => some ([(k, v)], r'')
            | r'' => (parsePyMembers fuel r'').map (fun (kvs, r3) => ((k, v) :: kvs, r3))
          | '\x7d' :: r' => some ([(k, v)], r')
          | _ => none
        | _ => none
      else none
    | [] => none

end

/-- `ast.literal_eval` on the supported literal subset: the whole string must
be one literal surrounded only by whitespace. -/
def literalEval (s : String) : Option JVal :=
  match parsePyValue (3 * s.length + 9) s.data with
  | some (v, rest) => if skipWs rest = [] then some v else none
  | none => none

/-- Index of the first occurrence of `pat` as a sublist of `cs`. -/
def findSubIdx (pat : List Char) : List Char → Option Nat
  | [] => if pat = [] then some 0 else none
  | c :: rest =>
    if (c :: rest).take pat.length = pat then some 0
    else (findSubIdx pat rest).map (· + 1)

/-- Index of the first occurrence of a character. -/
def charFindIdx (t : Char) : List Char → Option Nat
  | [] => none
  | c :: rest => if c = t then some 0 else (charFindIdx t rest).map (· + 1)

/-- The capture of `re.search(r"```(?:json)?\s*([\s\S]*?)\s*```", response,
re.IGNORECASE)`: the text between the first fence pair, with the optional
`json` tag and the surrounding whitespace removed. -/
def fencedCandidate (s : String) : Option String :=
  let fence : List Char := ['\x60', '\x60', '\x60']
  match findSubIdx fence s.data with
  | none => none
  | some i =>
    let after := s.data.drop (i + 3)
    let after := if (after.take 4).map pyCharLower = "json".data then after.drop 4 else after
    let after := after.dropWhile pyIsSpace
    match findSubIdx fence after with
    | none => none
    | some j => some ⟨((after.take j).reverse.dropWhile pyIsSpace).reverse⟩

/-- The scanning loop of `_extract_json_object`: starting at the first `\x7b`,
track brace depth while skipping over quoted strings; return the length of
the balanced object. -/
def extractLoop : List Char → Nat → Bool → Bool → Nat → Option Nat
  | [], _, _, _, _ => none
  | ch :: rest, depth, inStr, esc, n =>
    if inStr then
      if esc then extractLoop rest depth true false (n + 1)
      else if ch = '\\' then extractLoop rest depth true true (n + 1)
      else if ch = '"' then extractLoop rest depth false false (n + 1)
      else extractLoop rest depth true false (n + 1)
    else if ch = '"' then extractLoop rest depth true false (n + 1)
    else if ch = '\x7b' then extractLoop rest (depth + 1) false false (n + 1)
    else if ch = '\x7d' then
      if depth = 1 then some (n + 1) else extractLoop rest (depth - 1) false false (n + 1)
    else extractLoop rest depth inStr esc (n + 1)

/-- `_extract_json_object`: extract the first balance-delimited top-level
object, ignoring braces inside quoted strings. -/
def extractJsonObject (s : String) : Option String :=
  match charFindIdx '\x7b' s.data with
  | none => none
  | some start =>
    let tail := s.data.drop start
    (extractLoop tail 0 false false 0).map (fun len => ⟨tail.take len⟩)

/-- `re.sub(r",\s*([}\]])", r"\1", candidate)`: drop a comma standing right
before a closing brace or bracket. -/
def stripTrailingCommasGo : Nat → List Char → List Char
  | 0, cs => cs
  | _ + 1, [] => []
  | fuel + 1, c :: rest =>
    if c = ',' then
      let ws := rest.takeWhile pyIsSpace
      match rest.drop ws.length with
      | b :: rest' =>
        if b = '\x7d' || b = ']' then b :: stripTrailingCommasGo fuel rest'
        else c :: stripTrailingCommasGo fuel rest
      | [] => c :: stripTrailingCommasGo fuel rest
    else c :: stripTrailingCommasGo fuel rest

def stripTrailingCommas (s : String) : String :=
  ⟨stripTrailingCommasGo s.data.length s.data⟩

/-- `_safe_parse_json`: strip a fenced block (or balance-scan for the first
object), then `json.loads`, then `json.loads` after removing trailing commas,
then `ast.literal_eval` accepting only a dict.  Note that the two
`json.loads` steps return whatever value was decoded — not only objects. -/
def safeParseJson (response : String) : Option JVal :=
  if response = "" then none
  else
    let candidate? :=
      match fencedCandidate response with
      | some c => some c
      | none => extractJsonObject response
    match candidate? with
    | none => none
    | some cand =>
      if cand = "" then none
      else
        let cand := pyStrip cand
        match jsonLoads cand with
        | some v => some v
        | none =>
          let cleaned := stripTrailingCommas cand
          match jsonLoads cleaned with
          | some v => some v
          | none =>
            match literalEval cleaned with
            | some v => if v.isObj then some v else none
            | none => none

/-! ### Coordinate locator (`_find_coordinate_for_value`) -/

/-- One OCR block of `json_content["parsing_res_list"]`.  The OCR layer
(`ocr_service._parse_deepseek_grounding`) always builds `block_content` as a
string; `block_bbox` is kept as an arbitrary list since the code re-checks
its length. -/
structure Block where
  content : String
  bbox : List ℚ
deriving DecidableEq, Repr

/-- First scanning pass of `_find_coordinate_for_value`: the first block whose
text contains the value, provided its bbox has 4 entries; a containing block
with a malformed bbox is skipped, not a failure. -/
def findCoordExact (vl : String) : List Block → Option (List ℚ)
  | [] => none
  | b :: bs =>
    if b.content = "" then findCoordExact vl bs
    else if strIn vl (pyLower b.content) then
      (if b.bbox.length = 4 then some b.bbox else findCoordExact vl bs)
    else findCoordExact vl bs

/-- Second scanning pass: the first block whose (lowered) text contains at
least half of the value's words, provided its bbox has 4 entries. -/
def findCoordFuzzy (ws : List String) : List Block → Option (List ℚ)
  | [] => none
  | b :: bs =>
    let bc := pyLower b.content
    if bc = "" then findCoordFuzzy ws bs
    else if ws.length ≤ 2 * (ws.filter (fun w => strIn w bc)).length then
      (if b.bbox.length = 4 then some b.bbox else findCoordFuzzy ws bs)
    else findCoordFuzzy ws bs

/-- `_find_coordinate_for_value`.  `jsonContent = none` models a falsy
`json_content`; a `some blocks` models a dict whose `parsing_res_list` is
`blocks`.  Calling `.lower()` on a non-string value raises
`AttributeError`. -/
def findCoordinateForValue (value : JVal) (jsonContent : Option (List Block)) :
    Except PyExc (Option (List ℚ)) :=
  match jsonContent with
  | none => .ok none
  | some blocks =>
    if blocks.isEmpty then .ok none
    else
      match value with
      | .jstr s =>
        let vl := pyStrip (pyLower s)
        match findCoordExact vl blocks with
        | some bb => .ok (some bb)
        | none =>
          let ws := pySplitWs vl
          if 2 ≤ ws.length then .ok (findCoordFuzzy ws blocks) else .ok none
      | _ => .error .attributeError

/-! ### Reconciliation engine (`_parse_extracted_fields`) -/

/-- One record produced by the reconciliation engine; scalar records carry
`group = none` and `rowIndex = none` (the corresponding keys are absent from
the Python dict). -/
structure FieldData where
  name : String
  value : JVal
  confidence : ℚ
  coordinate : Option (List ℚ)
  group : Option String
  rowIndex : Option Nat

/-- The all-not-found placeholder record emitted for a requested field the
response did not cover. -/
def notFoundRecord (name : String) : FieldData :=
  ⟨name, .jstr "Не найдено", 0, none, none, none⟩

/-- The per-cell value/confidence computation of the table loop: confidence
defaults to `0.8`; a dict cell supplies `value` and `confidence`; an empty or
missing (`None`) value becomes the not-found placeholder. -/
def cellValueConf (cell : JVal) : Except PyExc (JVal × ℚ) :=
  match cell with
  | .jobj kvs => do
    let v := JVal.jget (.jobj kvs) "value"
    let conf ← pyFloat (JVal.jgetD (.jobj kvs) "confidence" (.jnum 0.8))
    let v := if JVal.pyEq v .jnull || JVal.pyEq v (.jstr "") then .jstr "Не найдено" else v
    .ok (v, conf)
  | c =>
    let v := if JVal.pyEq c .jnull || JVal.pyEq c (.jstr "") then .jstr "Не найдено" else c
    .ok (v, 0.8)

/-- The record built for one schema column of one table row. -/
def columnRecord (canonical : String) (rowIndex : Nat) (jsonContent : Option (List Block))
    (rowValues : List (String × JVal)) (normalizedKeys : List (String × String))
    (column : String) : Except PyExc FieldData := do
  let columnKey := pyStrip (pyLower column)
  let rowKey := (dictLookup normalizedKeys columnKey).getD column
  let cell := (dictLookup rowValues rowKey).getD .jnull
  let (v, conf) ← cellValueConf cell
  let coord ←
    if jsonContent.isSome && !JVal.pyEq v (.jstr "Не найдено") then
      findCoordinateForValue v jsonContent
    else .ok none
  .ok ⟨column, v, conf, coord, some canonical, some rowIndex⟩

def processColumns (canonical : String) (rowIndex : Nat) (jsonContent : Option (List Block))
    (rowValues : List (String × JVal)) (normalizedKeys : List (String × String)) :
    List String → Except PyExc (List FieldData)
  | [] => .ok []
  | c :: rest => do
    let r ← columnRecord canonical rowIndex jsonContent rowValues normalizedKeys c
    let rs ← processColumns canonical rowIndex jsonContent rowValues normalizedKeys rest
    .ok (r :: rs)

/-- `row_values` for one row: a dict row is used as is; a list row is zipped
against the schema columns (when there are any); other shapes skip the row. -/
def rowValuesOf (columns : List String) (row : JVal) : Option (List (String × JVal)) :=
  match row with
  | .jobj kvs => some kvs
  | .jarr l =>
    if columns.isEmpty then none
    else some ((columns.zip l).foldl (fun d kv => dictInsert d kv.1 kv.2) [])
  | _ => none

/-- `normalized_keys`: normalized row key → original row key. -/
def normalizedKeysOf (rowValues : List (String × JVal)) : List (String × String) :=
  rowValues.foldl (fun d kv => dictInsert d (pyStrip (pyLower kv.1)) kv.1) []

def processRows (canonical : String) (columns : List String)
    (jsonContent : Option (List Block)) : Nat → List JVal → Except PyExc (List FieldData)
  | _, [] => .ok []
  | idx, row :: rest => do
    let recs ←
      match rowValuesOf columns row with
      | none => .ok []
      | some rv => processColumns canonical idx jsonContent rv (normalizedKeysOf rv) columns
    let more ← processRows canonical columns jsonContent (idx + 1) rest
    .ok (recs ++ more)

/-- `table.get("group") or table.get("name") or table.get("title")`. -/
def groupNameOf (t : JVal) : JVal :=
  let a := JVal.jget t "group"
  if a.pyTruthy then a
  else
    let b := JVal.jget t "name"
    if b.pyTruthy then b else JVal.jget t "title"

/-- Resolve a table's group against `group_lookup`: falsy name → only usable
when a single normalized group exists; otherwise exact lookup, then the
single-group default, then first bidirectional-substring match; no match
drops the table. -/
def resolveGroup (groupLookup : List (String × (String × List String))) (gn : JVal) :
    Option (String × List String) :=
  if !gn.pyTruthy then
    match groupLookup with
    | [(_, v)] => some v
    | _ => none
  else
    match dictLookup groupLookup (normName gn) with
    | some v => some v
    | none =>
      match groupLookup with
      | [(_, v)] => some v
      | _ =>
        (groupLookup.find? (fun kv =>
          strIn (normName gn) kv.1 || strIn kv.1 (normName gn))).map (fun kv => kv.2)

/-- `rows = table.get("rows") or table.get("items") or []`. -/
def tableRowsOf (t : JVal) : JVal :=
  let a := JVal.jget t "rows"
  if a.pyTruthy then a
  else
    let b := JVal.jget t "items"
    if b.pyTruthy then b else .jarr []

/-- Process one element of the response's `tables` list. -/
def processOneTable (groupLookup : List (String × (String × List String)))
    (jsonContent : Option (List Block)) (t : JVal) : Except PyExc (List FieldData) :=
  match t with
  | .jobj _ =>
    match resolveGroup groupLookup (groupNameOf t) with
    | none => .ok []
    | some (canonical, columns) =>
      match tableRowsOf t with
      | .jarr rs => processRows canonical columns jsonContent 0 rs
      | _ => .ok []
  | _ => .ok []

def processTables (groupLookup : List (String × (String × List String)))
    (jsonContent : Option (List Block)) : List JVal → Except PyExc (List FieldData)
  | [] => .ok []
  | t :: ts => do
    let recs ← processOneTable groupLookup jsonContent t
    let more ← processTables groupLookup jsonContent ts
    .ok (recs ++ more)

/-- `group_lookup`: normalized group name → (original group name, columns). -/
def groupLookupOf (tableGroups : List (String × List String)) :
    List (String × (String × List String)) :=
  tableGroups.foldl (fun d kv => dictInsert d (pyStrip (pyLower kv.1)) (kv.1, kv.2)) []

/-- `requested_map`: normalized requested field name → original name. -/
def requestedMapOf (fieldsToExtract : List String) : List (String × String) :=
  fieldsToExtract.foldl (fun d f => dictInsert d (pyStrip (pyLower f)) f) []

/-- `values` used for one response field entry. -/
def fieldEntryValues (f : JVal) : List JVal :=
  match JVal.jget f "values" with
  | .jarr l => l
  | _ =>
    match JVal.jget f "value" with
    | .jarr l => l
    | v => [v]

/-- The records built for the values of one matched response field entry. -/
def processValues (canonical : String) (f : JVal) (jsonContent : Option (List Block)) :
    List JVal → Except PyExc (List FieldData)
  | [] => .ok []
  | v :: rest => do
    let normalized := if JVal.pyEq v .jnull || JVal.pyEq v (.jstr "") then .jstr "Не найдено" else v
    let conf ← pyFloat (JVal.jgetD f "confidence" (.jnum 0.8))
    let coord ←
      if jsonContent.isSome && !JVal.pyEq normalized (.jstr "Не найдено") then
        findCoordinateForValue normalized jsonContent
      else .ok none
    let more ← processValues canonical f jsonContent rest
    .ok (⟨canonical, normalized, conf, coord, none, none⟩ :: more)

/-- The loop over `data.get("fields", [])`: response entries whose normalized
name is not a key of `requested_map` are discarded; matched entries emit one
record per value and bump `seen` for their canonical name. -/
def processLLMFields (requestedMap : List (String × String))
    (jsonContent : Option (List Block)) :
    List JVal → List (String × Nat) → Except PyExc (List FieldData × List (String × Nat))
  | [], seen => .ok ([], seen)
  | f :: rest, seen =>
    match f with
    | .jobj _ =>
      let name := JVal.jget f "name"
      if !name.pyTruthy then processLLMFields requestedMap jsonContent rest seen
      else
        match dictLookup requestedMap (normName name) with
        | none => processLLMFields requestedMap jsonContent rest seen
        | some canonical => do
          let recs ← processValues canonical f jsonContent (fieldEntryValues f)
          let seen' :=
            if recs.isEmpty then seen
            else dictInsert seen canonical ((dictLookup seen canonical).getD 0 + recs.length)
          let (more, seen'') ← processLLMFields requestedMap jsonContent rest seen'
          .ok (recs ++ more, seen'')
    | _ => processLLMFields requestedMap jsonContent rest seen

/-- The trailing loop of `_parse_extracted_fields`: a placeholder record for
every requested field with `seen` count zero, in request order. -/
def addMissing (seen : List (String × Nat)) (fieldsToExtract : List String) : List FieldData :=
  fieldsToExtract.filterMap (fun f =>
    if (dictLookup seen f).getD 0 = 0 then some (notFoundRecord f) else none)

/-- The table section of `_parse_extracted_fields`: the loop over
`data.get("tables", [])`, skipped when that value is not a list. -/
def tableSection (data : JVal) (groupLookup : List (String × (String × List String)))
    (jsonContent : Option (List Block)) : Except PyExc (List FieldData) :=
  match JVal.jgetD data "tables" (.jarr []) with
  | .jarr ts => processTables groupLookup jsonContent ts
  | _ => .ok []

/-- Body of `_parse_extracted_fields` once a value was decoded from the
response.  Calling `.get` on a decoded non-dict raises `AttributeError` —
which the surrounding handler does not catch. -/
def parseExtractedFieldsData (data : JVal) (fieldsToExtract : List String)
    (jsonContent : Option (List Block)) (tableGroups : List (String × List String)) :
    Except PyExc (List FieldData) :=
  match data with
  | .jobj _ => do
    let tableRecs ← tableSection data (groupLookupOf tableGroups) jsonContent
    let elems ← iterElems (JVal.jgetD data "fields" (.jarr []))
    let (fieldRecs, seen) ← processLLMFields (requestedMapOf fieldsToExtract) jsonContent elems []
    .ok (tableRecs ++ fieldRecs ++ addMissing seen fieldsToExtract)
  | _ => .error .attributeError

/-- `_parse_extracted_fields`: decode the response, reconcile it, and map the
caught exception classes — and an undecodable response — to the all-not-found
fallback.  An uncaught exception (`AttributeError`) propagates. -/
def parseExtractedFields (response : String) (fieldsToExtract : List String)
    (jsonContent : Option (List Block)) (tableGroups : List (String × List String)) :
    Except PyExc (List FieldData) :=
  match safeParseJson response with
  | none => .ok (fieldsToExtract.map notFoundRecord)
  | some data =>
    match parseExtractedFieldsData data fieldsToExtract jsonContent tableGroups with
    | .ok l => .ok l
    | .error e =>
      if e.isCaught then .ok (fieldsToExtract.map notFoundRecord) else .error e

/-- `extract_fields`: the public entry point.  `configured` models
`settings.OPENROUTER_API_KEY` being set; `genResult` models the outcome of
the `_generate` network call; the OCR `text` only feeds the prompt and never
the result.  Any exception out of generation or parsing is caught and mapped
to per-field error records. -/
def extractFields (configured : Bool) (text : String) (genResult : Except PyExc String)
    (fieldsToExtract : List String) (jsonContent : Option (List Block))
    (tableGroups : List (String × List String)) : List FieldData :=
  if !configured || (fieldsToExtract.isEmpty && tableGroups.isEmpty) then []
  else
    match genResult with
    | .error _ =>
      fieldsToExtract.map (fun f => ⟨f, .jstr "Ошибка извлечения", 0, none, none, none⟩)
    | .ok response =>
      match parseExtractedFields response fieldsToExtract jsonContent tableGroups with
      | .ok l => l
      | .error _ =>
        fieldsToExtract.map (fun f => ⟨f, .jstr "Ошибка извлечения", 0, none, none, none⟩)

/-! ### Classification (`_score_document_types_simple`,
`classify_document_type`, `_classify_document_type_sync`) -/

/-- One candidate document type as passed to the classifier payload
(`id` is `str(item.id)`; `fields` is `item.fields or []`). -/
structure DocTypeItem where
  id : String
  name : String
  fields : List String
deriving DecidableEq, Repr

/-- The score one candidate receives in `_score_document_types_simple`:
+3 when its (non-empty, lowered) name is a substring of the lowered text,
+1 per (non-empty, lowered) schema field that is a substring. -/
def scoreOf (textLower : String) (d : DocTypeItem) : Nat :=
  (if pyLower d.name ≠ "" && strIn (pyLower d.name) textLower then 3 else 0) +
    (d.fields.countP (fun f => pyLower f ≠ "" && strIn (pyLower f) textLower))

/-- The accumulator loop of `_score_document_types_simple`: keep the first
candidate whose score strictly exceeds the running best. -/
def scoreLoop (textLower : String) : List DocTypeItem → Nat → Option String → Option String
  | [], _, best => best
  | d :: rest, bestScore, best =>
    if bestScore < scoreOf textLower d then scoreLoop textLower rest (scoreOf textLower d) (some d.id)
    else scoreLoop textLower rest bestScore best

/-- `_score_document_types_simple`. -/
def scoreDocumentTypesSimple (text : String) (documentTypes : List DocTypeItem) :
    Option String :=
  if text = "" || documentTypes.isEmpty then none
  else scoreLoop (pyLower text) documentTypes 0 none

/-- Selection rule as the specification words it: the highest-scoring
candidate with a strictly positive score, ties broken by first-seen order,
`none` when every candidate scores zero. -/
def specArgmaxFirst (text : String) (documentTypes : List DocTypeItem) : Option String :=
  if (documentTypes.map (scoreOf (pyLower text))).foldr max 0 = 0 then none
  else
    (documentTypes.find? (fun d => scoreOf (pyLower text) d =
      (documentTypes.map (scoreOf (pyLower text))).foldr max 0)).map (fun d => d.id)

/-- The greedy `\x7b[\s\S]*\x7d` capture of `_parse_classification`: from the
first opening brace to the last closing brace. -/
def firstToLastBrace (s : String) : Option String :=
  match charFindIdx '\x7b' s.data with
  | none => none
  | some i =>
    match charFindIdx '\x7d' s.data.reverse with
    | none => none
    | some rj =>
      let j := s.data.length - 1 - rj
      if i < j then some ⟨(s.data.drop i).take (j - i + 1)⟩ else none

/-- `_parse_classification`: decode the brace-delimited span and accept a
string `document_type_id` only when it is one of the allowed ids. -/
def parseClassification (response : String) (allowedIds : List String) : Option String :=
  match firstToLastBrace response with
  | none => none
  | some sub =>
    match jsonLoads sub with
    | some (.jobj kvs) =>
      match JVal.jget (.jobj kvs) "document_type_id" with
      | .jstr s => if allowedIds.contains s then some s else none
      | _ => none
    | _ => none

/-- `classify_document_type`: an unconfigured engine goes straight to the
simple score; otherwise the engine response is parsed and, when it does not
yield an allowed id (or generation raised), the simple score is the
fallback. -/
def classifyDocumentType (configured : Bool) (genResult : Except PyExc String)
    (text : String) (documentTypes : List DocTypeItem) : Option String :=
  if text = "" || documentTypes.isEmpty then none
  else
    let allowedIds := (documentTypes.filter (fun d => d.id ≠ "")).map (fun d => d.id)
    if !configured then scoreDocumentTypesSimple text documentTypes
    else
      let parsed :=
        match genResult with
        | .ok response => parseClassification response allowedIds
        | .error _ => none
      match parsed with
      | some id => some id
      | none => scoreDocumentTypesSimple text documentTypes

/-- `_classify_document_type_sync` (folder trigger service): no candidates
returns nothing; a truthy classifier result wins; otherwise a single
candidate is chosen by default. -/
def classifyDocumentTypeSync (configured : Bool) (genResult : Except PyExc String)
    (text : String) (items : List DocTypeItem) : Option String × List DocTypeItem :=
  match items with
  | [] => (none, [])
  | _ =>
    let r := classifyDocumentType configured genResult text items
    let truthyR := match r with
      | some id => if id = "" then none else some id
      | none => none
    match truthyR with
    | some id => (some id, items)
    | none =>
      match items with
      | [d] => (some d.id, items)
      | _ => (none, items)

/-! ### Review status state machine (`crud/processing_run.py`) -/

/-- `DocumentStatus` of `models/processed_document.py`. -/
inductive DocStatus where
  | processing
  | needsReview
  | reviewed
  | error
deriving DecidableEq, Repr

/-- `ProcessingStatus` of `models/processing_run.py`. -/
inductive RunStatus where
  | processing
  | needsReview
  | reviewed
  | error
deriving DecidableEq, Repr

/-- One processing run together with its documents (document id, status). -/
structure RunState where
  runStatus : RunStatus
  docs : List (Nat × DocStatus)
deriving DecidableEq, Repr

/-- Set the status of every document carrying the given id. -/
def setDocStatus (docs : List (Nat × DocStatus)) (id : Nat) (st : DocStatus) :
    List (Nat × DocStatus) :=
  docs.map (fun d => if d.1 = id then (d.1, st) else d)

/-- `mark_document_reviewed`: a missing document returns `None` (state
unchanged); otherwise the document becomes `reviewed` and the run becomes
`reviewed` exactly when all documents now are. -/
def markDocumentReviewed (id : Nat) (s : RunState) : RunState :=
  if s.docs.any (fun d => d.1 = id) then
    let docs := setDocStatus s.docs id .reviewed
    let allReviewed := docs.all (fun d => d.2 = DocStatus.reviewed)
    ⟨if allReviewed then .reviewed else s.runStatus, docs⟩
  else s

/-- `cancel_document_review`: a missing document returns `None`; otherwise the
document and its run both become `needs_review`. -/
def cancelDocumentReview (id : Nat) (s : RunState) : RunState :=
  if s.docs.any (fun d => d.1 = id) then
    ⟨.needsReview, setDocStatus s.docs id .needsReview⟩
  else s

/-- A review operation on a single document of the run. -/
inductive ReviewOp where
  | mark (id : Nat)
  | cancel (id : Nat)
deriving DecidableEq, Repr

def applyReviewOp (op : ReviewOp) (s : RunState) : RunState :=
  match op with
  | .mark id => markDocumentReviewed id s
  | .cancel id => cancelDocumentReview id s

def applyReviewOps (ops : List ReviewOp) (s : RunState) : RunState :=
  ops.foldl (fun s op => applyReviewOp op s) s

/-- The aggregate invariant of §4.1: the run is `reviewed` iff every document
is. -/
def runReviewInvariant (s : RunState) : Prop :=
  s.runStatus = .reviewed ↔ ∀ d ∈ s.docs, d.2 = DocStatus.reviewed

/-! ### Folder trigger scanner (`scan_folder_triggers`) -/

/-- `_allowed_file`: the name contains a dot and its lowered last-dot suffix
is an allowed extension. -/
def allowedFile (allowedExts : List String) (filename : String) : Bool :=
  strIn "." filename &&
    allowedExts.contains (pyLower ⟨(filename.data.reverse.takeWhile (fun c => c ≠ '.')).reverse⟩)

/-- Observable actions of one scan pass over one trigger. -/
inductive ScanEvent where
  | submit (filename : String)
  | persistSet (s : Finset String)
deriving DecidableEq

/-- The per-file loop: `_process_file` is attempted and — on success and on
exception alike — the file name is added to the in-memory set.  `outcome`
tells whether the attempt succeeded; both branches add. -/
def processBatch (outcome : String → Bool) : List String → Finset String → Finset String
  | [], processed => processed
  | n :: rest, processed =>
    let processed := if outcome n then insert n processed else insert n processed
    processBatch outcome rest processed

/-- One scan pass over one enabled trigger: list the folder, keep allowed new
files, attempt each in discovery order, and persist the grown set once after
the whole batch (no persist when there was nothing new). -/
def scanOneTrigger (allowedExts : List String) (folderFiles : List String)
    (processed0 : Finset String) (outcome : String → Bool) :
    List ScanEvent × Finset String :=
  let newFiles := folderFiles.filter (fun n => allowedFile allowedExts n && !(decide (n ∈ processed0)))
  if newFiles.isEmpty then ([], processed0)
  else
    let finalSet := processBatch outcome newFiles processed0
    (newFiles.map .submit ++ [.persistSet finalSet], finalSet)

/-- Several consecutive scan cycles, each with its own folder listing and
attempt outcomes, threading the persisted set. -/
def scanCycles (allowedExts : List String) :
    List (List String × (String → Bool)) → Finset String →
      List (List ScanEvent) × Finset String
  | [], s => ([], s)
  | (folder, outcome) :: rest, s =>
    let r := scanOneTrigger allowedExts folder s outcome
    let more := scanCycles allowedExts rest r.2
    (r.1 :: more.1, more.2)

/-! ### Celery retry loop (`process_document_task`) -/

/-- Observable summary of one task submission: how many attempts ran, the
countdown scheduled before each retry, the final document and run statuses,
and whether the exception escaped to the caller. -/
structure TaskOutcome where
  attempts : Nat
  delays : List Nat
  docStatus : DocStatus
  runStatus : RunStatus
  raised : Bool
deriving DecidableEq, Repr

/-- The retry loop of `process_document_task` (`max_retries=3`,
`countdown=60 * (retries + 1)`): `fails r` tells whether the body raises on
the attempt with retry counter `r`.  A failing attempt sets both statuses to
`error` and retries while `r < 3`; the body on success leaves the document
and run at `needs_review`. -/
def celeryLoop (fails : Nat → Bool) : Nat → Nat → TaskOutcome
  | 0, _ => ⟨0, [], .error, .error, true⟩
  | fuel + 1, r =>
    if fails r then
      if r < 3 then
        let t := celeryLoop fails fuel (r + 1)
        ⟨t.attempts + 1, 60 * (r + 1) :: t.delays, t.docStatus, t.runStatus, t.raised⟩
      else ⟨1, [], .error, .error, true⟩
    else ⟨1, [], .needsReview, .needsReview, false⟩

/-- One full submission of `process_document_task`. -/
def processDocumentTask (fails : Nat → Bool) : TaskOutcome :=
  celeryLoop fails 4 0

/-! ### Specification-style coordinate locator (for comparison) -/

/-- Eligibility of a block for the exact pass, as the amended specification
words it: non-empty text that contains the trimmed lower-cased value, and a
well-formed 4-entry bbox. -/
def blockExactMatch (vl : String) (b : Block) : Bool :=
  b.content ≠ "" && strIn vl (pyLower b.content) && b.bbox.length = 4

/-- Eligibility of a block for the fuzzy pass: non-empty text containing at
least half of the value's words, and a well-formed 4-entry bbox. -/
def blockFuzzyMatch (ws : List String) (b : Block) : Bool :=
  b.content ≠ "" && decide (ws.length ≤ 2 * (ws.filter (fun w => strIn w (pyLower b.content))).length) &&
    b.bbox.length = 4

/-- The coordinate locator as the (amended) specification describes it:
first block eligible for the exact pass wins; otherwise, when the trimmed
value has at least two words, the first block eligible for the fuzzy pass;
otherwise no box. -/
def findCoordSpec (value : String) (blocks : List Block) : Option (List ℚ) :=
  let vl := pyStrip (pyLower value)
  match blocks.find? (blockExactMatch vl) with
  | some b => some b.bbox
  | none =>
    let ws := pySplitWs vl
    if 2 ≤ ws.length then (blocks.find? (blockFuzzyMatch ws)).map (fun b => b.bbox)
    else none

/-! ## Theorems -/

/-- **C1.** The claim says `_parse_extracted_fields` never raises and falls
back to all-not-found whenever no JSON object is recovered.  The code's own
annotation (`_safe_parse_json -> Optional[dict]`) and the `isinstance` check
on the `ast.literal_eval` path show that only dicts were meant to flow out of
decoding, but the two `json.loads` paths return any decoded value: a fenced
code block holding the JSON array `[1, 2]` makes `_safe_parse_json` return a
list, and `data.get("tables", [])` then raises `AttributeError` — a class
outside the caught tuple — so `_parse_extracted_fields` raises instead of
emitting the placeholder records. -/
theorem parseExtractedFieldsRaisesOnFencedArray :
    parseExtractedFields "```json\n[1, 2]\n```" ["x"] none [] =
      .error .attributeError := rfl

/-- **C10.** When the engine is unconfigured, or both the scalar field list
and the table-group map are empty, `extract_fields` returns the empty list,
so no requested field name appears in the output at this interface. -/
theorem extractFieldsUnconfiguredOrEmptyIsEmpty
    (configured : Bool) (text : String) (genResult : Except PyExc String)
    (fields : List String) (jc : Option (List Block)) (tg : List (String × List String))
    (h : configured = false ∨ (fields = [] ∧ tg = [])) :
    extractFields configured text genResult fields jc tg = [] ∧
      ∀ f ∈ fields, ¬ ∃ r ∈ extractFields configured text genResult fields jc tg,
        r.name = f := by
  have hempty : extractFields configured text genResult fields jc tg = [] := by
    rcases h with h | ⟨hf, ht⟩
    · simp [extractFields, h]
    · simp [extractFields, hf, ht]
  refine ⟨hempty, ?_⟩
  intro f _ hex
  rcases hex with ⟨r, hr, _⟩
  rw [hempty] at hr
  exact absurd hr (List.not_mem_nil r)

/-- Witness for C10 at a concrete unconfigured call. -/
theorem extractFieldsUnconfiguredOrEmptyIsEmptyWitness :
    extractFields false "t" (.ok "x") ["f"] none [] = [] ∧
      ∀ f ∈ ["f"], ¬ ∃ r ∈ extractFields false "t" (.ok "x") ["f"] none [],
        r.name = f :=
  extractFieldsUnconfiguredOrEmptyIsEmpty false "t" (.ok "x") ["f"] none []
    (Or.inl rfl)

/-- **C2, counterexample.** The claimed deterministic fallback does not
exist: with the OCR text literally containing `Invoice Number: INV-99` and an
unparseable model response, `extract_fields` returns the not-found
placeholder at confidence `0.0` — the value is never replaced by `INV-99` at
confidence `0.55`. -/
theorem extractFieldsNoPatternFallbackCounterexample :
    extractFields true "Invoice Number: INV-99" (.ok "garbage")
        ["Invoice Number"] none [] = [notFoundRecord "Invoice Number"] ∧
      ∀ r ∈ extractFields true "Invoice Number: INV-99" (.ok "garbage")
          ["Invoice Number"] none [],
        r.value ≠ JVal.jstr "INV-99" ∧ r.confidence ≠ 0.55 := by
  have h : extractFields true "Invoice Number: INV-99" (.ok "garbage")
      ["Invoice Number"] none [] = [notFoundRecord "Invoice Number"] := rfl
  refine ⟨h, ?_⟩
  intro r hr
  rw [h] at hr
  have hr' : r = notFoundRecord "Invoice Number" := List.mem_singleton.mp hr
  subst hr'
  constructor
  · intro hv
    injection hv with hv'
    exact absurd hv' (by decide)
  · intro hc
    exact absurd hc (by norm_num [notFoundRecord])

/-- **C2, amended.** After model-based parsing there is no deterministic
OCR-text fallback at all: whenever the response decodes to nothing, every
requested scalar field keeps the not-found placeholder at confidence `0.0`,
whatever the raw OCR text contains (in particular, no field holding a
non-placeholder value is ever changed afterwards, since nothing runs after
reconciliation). -/
theorem extractFieldsUnparsedKeepsPlaceholders
    (text response : String) (fields : List String) (jc : Option (List Block))
    (tg : List (String × List String)) (h : safeParseJson response = none) :
    extractFields true text (.ok response) fields jc tg = fields.map notFoundRecord := by
  by_cases hft : fields.isEmpty && tg.isEmpty
  · have hf : fields = [] := by
      cases fields <;> simp_all
    have ht : tg = [] := by
      cases tg <;> simp_all
    subst hf
    subst ht
    simp [extractFields]
  · simp only [extractFields, Bool.not_true, Bool.false_or, hft]
    simp [parseExtractedFields, h]

/-- Witness for the amended C2 at a concrete unparseable response. -/
theorem extractFieldsUnparsedKeepsPlaceholdersWitness :
    extractFields true "Invoice Number: INV-99" (.ok "garbage")
        ["Invoice Number"] none [] = [notFoundRecord "Invoice Number"] :=
  extractFieldsUnparsedKeepsPlaceholders "Invoice Number: INV-99" "garbage"
    ["Invoice Number"] none [] rfl

/-- Membership in `setDocStatus`: every entry is the image of an original
entry, updated when its id matches. -/
theorem mem_setDocStatus {docs : List (Nat × DocStatus)} {id : Nat} {st : DocStatus}
    {d : Nat × DocStatus} (hd : d ∈ setDocStatus docs id st) :
    ∃ d0 ∈ docs, d = if d0.1 = id then (d0.1, st) else d0 := by
  rcases List.mem_map.mp hd with ⟨d0, hd0, heq⟩
  exact ⟨d0, hd0, heq.symm⟩

/-- Marking a document reviewed preserves an all-reviewed document list. -/
theorem setDocStatus_reviewed_all {docs : List (Nat × DocStatus)} {id : Nat}
    (h : ∀ d ∈ docs, d.2 = DocStatus.reviewed) :
    ∀ d ∈ setDocStatus docs id .reviewed, d.2 = DocStatus.reviewed := by
  intro d hd
  rcases mem_setDocStatus hd with ⟨d0, hd0, heq⟩
  by_cases hid : d0.1 = id
  · simp [heq, hid]
  · rw [heq, if_neg hid]
    exact h d0 hd0

/-- One review operation preserves the aggregate invariant. -/
theorem applyReviewOp_invariant (op : ReviewOp) (s : RunState)
    (h : runReviewInvariant s) : runReviewInvariant (applyReviewOp op s) := by
  cases op with
  | mark id =>
    show runReviewInvariant (markDocumentReviewed id s)
    unfold markDocumentReviewed
    by_cases hpres : s.docs.any (fun d => d.1 = id)
    · rw [if_pos hpres]
      by_cases hall : ∀ d ∈ setDocStatus s.docs id .reviewed, d.2 = DocStatus.reviewed
      · have hallb : (setDocStatus s.docs id .reviewed).all
            (fun d => d.2 = DocStatus.reviewed) = true := by
          rw [List.all_eq_true]
          intro d hd
          exact decide_eq_true (hall d hd)
        constructor
        · intro _
          exact hall
        · intro _
          simp only [hallb, if_pos]
      · have hallb : (setDocStatus s.docs id .reviewed).all
            (fun d => d.2 = DocStatus.reviewed) = false := by
          push_neg at hall
          rcases hall with ⟨d, hdm, hdst⟩
          rw [List.all_eq_false]
          exact ⟨d, hdm, by simpa using hdst⟩
        simp only [hallb, Bool.false_eq_true, if_neg, not_false_eq_true]
        constructor
        · intro hrun
          have hold := h.mp hrun
          exact absurd (setDocStatus_reviewed_all hold) hall
        · intro hnew
          exact absurd hnew hall
    · rw [if_neg hpres]
      exact h
  | cancel id =>
    show runReviewInvariant (cancelDocumentReview id s)
    unfold cancelDocumentReview
    by_cases hpres : s.docs.any (fun d => d.1 = id)
    · rw [if_pos hpres]
      constructor
      · intro hrun
        exact absurd hrun (by simp)
      · intro hnew
        rcases List.any_eq_true.mp hpres with ⟨d0, hd0, hid⟩
        have hid' : d0.1 = id := of_decide_eq_true hid
        have hmem : (d0.1, DocStatus.needsReview) ∈ setDocStatus s.docs id .needsReview :=
          List.mem_map.mpr ⟨d0, hd0, by simp [hid']⟩
        have := hnew _ hmem
        exact absurd this (by simp)
    · rw [if_neg hpres]
      exact h

/-- **C5.** (i) the invariant "run is `reviewed` iff every document is" is
preserved by any sequence of `mark_document_reviewed` /
`cancel_document_review` calls; (ii) marking one document while a sibling is
not reviewed leaves the run status unchanged; (iii) cancelling review on a
document of the run always sets the run to `needs_review`. -/
theorem runReviewStateMachine :
    (∀ (s : RunState) (ops : List ReviewOp), runReviewInvariant s →
        runReviewInvariant (applyReviewOps ops s)) ∧
      (∀ (s : RunState) (id : Nat),
          (∃ d ∈ s.docs, d.1 ≠ id ∧ d.2 ≠ DocStatus.reviewed) →
          (markDocumentReviewed id s).runStatus = s.runStatus) ∧
      (∀ (s : RunState) (id : Nat), (∃ d ∈ s.docs, d.1 = id) →
          (cancelDocumentReview id s).runStatus = RunStatus.needsReview) := by
  refine ⟨?_, ?_, ?_⟩
  · intro s ops h
    induction ops generalizing s with
    | nil => exact h
    | cons op rest ih =>
      exact ih (applyReviewOp op s) (applyReviewOp_invariant op s h)
  · intro s id hsib
    rcases hsib with ⟨d, hd, hne, hst⟩
    unfold markDocumentReviewed
    by_cases hpres : s.docs.any (fun dd => dd.1 = id)
    · rw [if_pos hpres]
      have hmem : d ∈ setDocStatus s.docs id .reviewed :=
        List.mem_map.mpr ⟨d, hd, by simp [hne]⟩
      have hallb : (setDocStatus s.docs id .reviewed).all
          (fun dd => dd.2 = DocStatus.reviewed) = false := by
        rw [List.all_eq_false]
        exact ⟨d, hmem, by simpa using hst⟩
      simp only [hallb, Bool.false_eq_true, if_neg, not_false_eq_true]
    · rw [if_neg hpres]
  · intro s id hpres'
    rcases hpres' with ⟨d, hd, hid⟩
    have hpres : s.docs.any (fun dd => dd.1 = id) = true :=
      List.any_eq_true.mpr ⟨d, hd, decide_eq_true hid⟩
    unfold cancelDocumentReview
    rw [if_pos hpres]

/-- Witness for C5: a two-document run where one document is reviewed and
the sibling is not. -/
theorem runReviewStateMachineWitness :
    runReviewInvariant (applyReviewOps [ReviewOp.mark 1, ReviewOp.cancel 2]
        ⟨.needsReview, [(1, .processing), (2, .needsReview)]⟩) ∧
      (markDocumentReviewed 1
          ⟨.needsReview, [(1, .processing), (2, .needsReview)]⟩).runStatus =
        RunStatus.needsReview ∧
      (cancelDocumentReview 2
          ⟨.needsReview, [(1, .processing), (2, .needsReview)]⟩).runStatus =
        RunStatus.needsReview := by
  refine ⟨runReviewStateMachine.1 _ _ (by unfold runReviewInvariant; decide), ?_, ?_⟩
  · exact runReviewStateMachine.2.1 _ 1 ⟨(2, .needsReview), by decide, by decide, by decide⟩
  · exact runReviewStateMachine.2.2 _ 2 ⟨(2, .needsReview), by decide, by decide⟩

/-- **C9, counterexample.** With `max_retries=3` Celery runs the initial
attempt plus up to three retries: a permanently failing body is executed 4
times, not the claimed "at most 3 attempts in total". -/
theorem processDocumentTaskFourAttemptsCounterexample :
    processDocumentTask (fun _ => true) =
        ⟨4, [60, 120, 180], .error, .error, true⟩ ∧
      ¬ (processDocumentTask (fun _ => true)).attempts ≤ 3 := by
  constructor
  · rfl
  · intro h
    have : (processDocumentTask (fun _ => true)).attempts = 4 := rfl
    omega

/-- **C9, amended.** A submission runs at most 4 attempts (one initial run
plus up to 3 retries); the countdown before the (i+1)-th retry is
`60 * (i + 1)` seconds; when every attempt fails, the document and the run
end in `error` and the exception is re-raised to the caller (whenever the
exception escapes, both statuses are `error`). -/
theorem processDocumentTaskRetryBudget (fails : Nat → Bool) :
    (processDocumentTask fails).attempts ≤ 4 ∧
      (processDocumentTask fails).delays =
        (List.range ((processDocumentTask fails).attempts - 1)).map (fun i => 60 * (i + 1)) ∧
      ((∀ r, fails r = true) →
        processDocumentTask fails = ⟨4, [60, 120, 180], .error, .error, true⟩) ∧
      ((processDocumentTask fails).raised = true →
        (processDocumentTask fails).docStatus = .error ∧
        (processDocumentTask fails).runStatus = .error) := by
  refine ⟨?_, ?_, ?_, ?_⟩
  · cases h0 : fails 0 <;> cases h1 : fails 1 <;> cases h2 : fails 2 <;> cases h3 : fails 3 <;>
      simp [processDocumentTask, celeryLoop, h0, h1, h2, h3]
  · cases h0 : fails 0 <;> cases h1 : fails 1 <;> cases h2 : fails 2 <;> cases h3 : fails 3 <;>
      simp [processDocumentTask, celeryLoop, h0, h1, h2, h3] <;> decide
  · intro hall
    have h0 := hall 0
    have h1 := hall 1
    have h2 := hall 2
    have h3 := hall 3
    simp [processDocumentTask, celeryLoop, h0, h1, h2, h3]
  · cases h0 : fails 0 <;> cases h1 : fails 1 <;> cases h2 : fails 2 <;> cases h3 : fails 3 <;>
      simp [processDocumentTask, celeryLoop, h0, h1, h2, h3]

/-- Witness for the amended C9 at the permanently failing body. -/
theorem processDocumentTaskRetryBudgetWitness :
    (processDocumentTask (fun _ => true)).attempts ≤ 4 ∧
      processDocumentTask (fun _ => true) = ⟨4, [60, 120, 180], .error, .error, true⟩ := by
  have h := processDocumentTaskRetryBudget (fun _ => true)
  exact ⟨h.1, h.2.2.1 (fun _ => rfl)⟩

/-- The per-file loop only ever adds the attempted names to the set,
whatever the attempt outcomes were. -/
theorem processBatch_eq (outcome : String → Bool) :
    ∀ (l : List String) (s : Finset String), processBatch outcome l s = s ∪ l.toFinset := by
  intro l
  induction l with
  | nil => intro s; simp [processBatch]
  | cons n rest ih =>
    intro s
    simp only [processBatch, ite_self]
    rw [ih (insert n s), List.toFinset_cons, Finset.insert_union, Finset.union_insert]

/-- The submitted names of one scan pass are exactly the allowed folder
entries outside the persisted set. -/
theorem scanOneTrigger_submits (exts : List String) (folder : List String)
    (s0 : Finset String) (outcome : String → Bool) (n : String) :
    ScanEvent.submit n ∈ (scanOneTrigger exts folder s0 outcome).1 ↔
      n ∈ folder.filter (fun m => allowedFile exts m && !(decide (m ∈ s0))) := by
  unfold scanOneTrigger
  by_cases hnew : (folder.filter (fun m => allowedFile exts m && !(decide (m ∈ s0)))).isEmpty
  · rw [if_pos hnew]
    have : folder.filter (fun m => allowedFile exts m && !(decide (m ∈ s0))) = [] :=
      List.isEmpty_iff.mp hnew
    simp [this]
  · rw [if_neg hnew]
    simp only [List.mem_append, List.mem_map, List.mem_singleton]
    constructor
    · intro h
      rcases h with ⟨m, hm, heq⟩ | h
      · cases heq
        exact hm
      · cases h
    · intro h
      exact Or.inl ⟨n, h, rfl⟩

/-- The persisted set after one scan pass: the old set united with the batch. -/
theorem scanOneTrigger_finalSet (exts : List String) (folder : List String)
    (s0 : Finset String) (outcome : String → Bool) :
    (scanOneTrigger exts folder s0 outcome).2 =
      s0 ∪ (folder.filter (fun m => allowedFile exts m && !(decide (m ∈ s0)))).toFinset := by
  unfold scanOneTrigger
  by_cases hnew : (folder.filter (fun m => allowedFile exts m && !(decide (m ∈ s0)))).isEmpty
  · rw [if_pos hnew]
    have : folder.filter (fun m => allowedFile exts m && !(decide (m ∈ s0))) = [] :=
      List.isEmpty_iff.mp hnew
    simp [this]
  · rw [if_neg hnew]
    exact processBatch_eq outcome _ s0

/-- **C6.** One scan pass (i) submits only names outside the persisted set;
(ii) grows the set with exactly the attempted names — independently of
whether each attempt succeeded or raised; (iii) emits either no event or all
submits followed by a single persist of the final set; (iv) across any
number of cycles, a name once in the set is never submitted again. -/
theorem triggerScannerDedupAndPersist :
    (∀ (exts folder : List String) (s0 : Finset String) (outcome : String → Bool)
        (n : String),
        ScanEvent.submit n ∈ (scanOneTrigger exts folder s0 outcome).1 → n ∉ s0) ∧
      (∀ (exts folder : List String) (s0 : Finset String) (o1 o2 : String → Bool),
          scanOneTrigger exts folder s0 o1 = scanOneTrigger exts folder s0 o2) ∧
      (∀ (exts folder : List String) (s0 : Finset String) (outcome : String → Bool),
          s0 ⊆ (scanOneTrigger exts folder s0 outcome).2 ∧
          ∀ n, ScanEvent.submit n ∈ (scanOneTrigger exts folder s0 outcome).1 →
            n ∈ (scanOneTrigger exts folder s0 outcome).2) ∧
      (∀ (exts folder : List String) (s0 : Finset String) (outcome : String → Bool),
          ((scanOneTrigger exts folder s0 outcome).1 = [] ∧
              (scanOneTrigger exts folder s0 outcome).2 = s0) ∨
            ∃ names, names ≠ [] ∧
              (scanOneTrigger exts folder s0 outcome).1 =
                names.map ScanEvent.submit ++
                  [ScanEvent.persistSet (scanOneTrigger exts folder s0 outcome).2]) ∧
      (∀ (exts : List String) (cycles : List (List String × (String → Bool)))
          (s0 : Finset String) (n : String), n ∈ s0 →
          ∀ evs ∈ (scanCycles exts cycles s0).1, ScanEvent.submit n ∉ evs) := by
  have hsub : ∀ (exts folder : List String) (s0 : Finset String)
      (outcome : String → Bool) (n : String),
      ScanEvent.submit n ∈ (scanOneTrigger exts folder s0 outcome).1 → n ∉ s0 := by
    intro exts folder s0 outcome n h
    have hmem := (scanOneTrigger_submits exts folder s0 outcome n).mp h
    have hf := List.of_mem_filter hmem
    simp only [Bool.and_eq_true] at hf
    simpa using hf.2
  refine ⟨hsub, ?_, ?_, ?_, ?_⟩
  · intro exts folder s0 o1 o2
    unfold scanOneTrigger
    by_cases hnew : (folder.filter (fun m => allowedFile exts m && !(decide (m ∈ s0)))).isEmpty
    · rw [if_pos hnew, if_pos hnew]
    · rw [if_neg hnew, if_neg hnew, processBatch_eq o1, processBatch_eq o2]
  · intro exts folder s0 outcome
    rw [scanOneTrigger_finalSet]
    constructor
    · exact Finset.subset_union_left
    · intro n h
      have hmem := (scanOneTrigger_submits exts folder s0 outcome n).mp h
      exact Finset.mem_union_right _ (List.mem_toFinset.mpr hmem)
  · intro exts folder s0 outcome
    unfold scanOneTrigger
    by_cases hnew : (folder.filter (fun m => allowedFile exts m && !(decide (m ∈ s0)))).isEmpty
    · rw [if_pos hnew]
      exact Or.inl ⟨rfl, rfl⟩
    · rw [if_neg hnew]
      refine Or.inr ⟨folder.filter (fun m => allowedFile exts m && !(decide (m ∈ s0))), ?_, rfl⟩
      intro hcontra
      rw [hcontra] at hnew
      exact hnew rfl
  · intro exts cycles
    induction cycles with
    | nil =>
      intro s0 n _ evs hevs
      cases hevs
    | cons c rest ih =>
      intro s0 n hn evs hevs
      rcases c with ⟨folder, outcome⟩
      simp only [scanCycles, List.mem_cons] at hevs
      rcases hevs with rfl | hevs
      · intro habs
        exact hsub exts folder s0 outcome n habs hn
      · have hs0 : s0 ⊆ (scanOneTrigger exts folder s0 outcome).2 := by
          rw [scanOneTrigger_finalSet]
          exact Finset.subset_union_left
        exact ih (scanOneTrigger exts folder s0 outcome).2 n (hs0 hn) evs hevs

/-- Witness for C6: a two-file folder where one file is already in the
persisted set and the attempt on the other raises. -/
theorem triggerScannerDedupAndPersistWitness :
    ("a.pdf" ∉ ({"b.pdf"} : Finset String)) ∧
      ("b.pdf" ∈ ({"b.pdf"} : Finset String) ∧
        ∀ evs ∈ (scanCycles ["pdf"] [(["a.pdf", "b.pdf"], fun _ => false)]
            ({"b.pdf"} : Finset String)).1,
          ScanEvent.submit "b.pdf" ∉ evs) := by
  constructor
  · exact triggerScannerDedupAndPersist.1 ["pdf"] ["a.pdf", "b.pdf"] {"b.pdf"}
      (fun _ => false) "a.pdf" (by decide)
  · refine ⟨by decide, ?_⟩
    exact triggerScannerDedupAndPersist.2.2.2.2 ["pdf"]
      [(["a.pdf", "b.pdf"], fun _ => false)] {"b.pdf"} "b.pdf" (by decide)

/-- **C8, counterexample.**  Three divergences from the claim as stated:
(a) with value `""` and a single empty-text block, the block's text contains
the value (Python `"" in s` is true) yet no box is returned, because blocks
with empty text are skipped before the containment test; (b) when the first
containing block has a malformed (2-entry) bbox, the box of the *second*
containing block is returned — not the box of the first block whose text
contains the value; (c) with value `" A"` the code matches the *trimmed*
lower-cased value, returning a box although no block contains `" A"` itself
(and the one-word value has no fuzzy pass). -/
theorem findCoordinateForValueCounterexample :
    (findCoordinateForValue (.jstr "") (some [⟨"", [1, 2, 3, 4]⟩]) = .ok none ∧
        strIn (pyStrip (pyLower "")) (pyLower "") = true) ∧
      (findCoordinateForValue (.jstr "abc")
          (some [⟨"abc", [1, 2]⟩, ⟨"abc", [5, 6, 7, 8]⟩]) = .ok (some [5, 6, 7, 8]) ∧
        strIn (pyLower "abc") (pyLower "abc") = true) ∧
      (findCoordinateForValue (.jstr " A") (some [⟨"A", [1, 2, 3, 4]⟩]) =
          .ok (some [1, 2, 3, 4]) ∧
        strIn (pyLower " A") (pyLower "A") = false) :=
  ⟨⟨rfl, rfl⟩, ⟨rfl, rfl⟩, ⟨rfl, rfl⟩⟩

/-- Lowering a string preserves emptiness. -/
theorem pyLower_eq_empty_iff (s : String) : pyLower s = "" ↔ s = "" := by
  constructor
  · intro h
    have hd : s.data.map pyCharLower = [] := congrArg String.data h
    have : s.data = [] := List.map_eq_nil_iff.mp hd
    cases s
    simp_all
  · intro h
    rw [h]
    rfl

/-- The exact pass equals a `find?` over the exact-eligibility predicate. -/
theorem findCoordExact_eq_find (vl : String) :
    ∀ blocks : List Block,
      findCoordExact vl blocks = (blocks.find? (blockExactMatch vl)).map (fun b => b.bbox) := by
  intro blocks
  induction blocks with
  | nil => rfl
  | cons b bs ih =>
    by_cases hc : b.content = ""
    · have hp : blockExactMatch vl b = false := by
        simp [blockExactMatch, hc]
      rw [findCoordExact, if_pos hc, List.find?, hp, ih]
    · by_cases hin : strIn vl (pyLower b.content)
      · by_cases hlen : b.bbox.length = 4
        · have hp : blockExactMatch vl b = true := by
            simp [blockExactMatch, hc, hin, hlen]
          rw [findCoordExact, if_neg hc, if_pos hin, if_pos hlen, List.find?, hp]
          rfl
        · have hp : blockExactMatch vl b = false := by
            simp [blockExactMatch, hc, hin, hlen]
          rw [findCoordExact, if_neg hc, if_pos hin, if_neg hlen, List.find?, hp, ih]
      · have hp : blockExactMatch vl b = false := by
          simp [blockExactMatch, hc, hin]
        rw [findCoordExact, if_neg hc, if_neg hin, List.find?, hp, ih]

/-- The fuzzy pass equals a `find?` over the fuzzy-eligibility predicate. -/
theorem findCoordFuzzy_eq_find (ws : List String) :
    ∀ blocks : List Block,
      findCoordFuzzy ws blocks = (blocks.find? (blockFuzzyMatch ws)).map (fun b => b.bbox) := by
  intro blocks
  induction blocks with
  | nil => rfl
  | cons b bs ih =>
    by_cases hc : pyLower b.content = ""
    · have hc' : b.content = "" := (pyLower_eq_empty_iff b.content).mp hc
      have hp : blockFuzzyMatch ws b = false := by
        simp [blockFuzzyMatch, hc']
      rw [findCoordFuzzy, if_pos hc, List.find?, hp, ih]
    · have hc' : ¬ b.content = "" := fun h => hc (by rw [h]; rfl)
      by_cases hcnt : ws.length ≤ 2 * (ws.filter (fun w => strIn w (pyLower b.content))).length
      · by_cases hlen : b.bbox.length = 4
        · have hp : blockFuzzyMatch ws b = true := by
            simp [blockFuzzyMatch, hc', hcnt, hlen]
          rw [findCoordFuzzy, if_neg hc, if_pos hcnt, if_pos hlen, List.find?, hp]
          rfl
        · have hp : blockFuzzyMatch ws b = false := by
            simp [blockFuzzyMatch, hc', hcnt, hlen]
          rw [findCoordFuzzy, if_neg hc, if_pos hcnt, if_neg hlen, List.find?, hp, ih]
      · have hp : blockFuzzyMatch ws b = false := by
          simp [blockFuzzyMatch, hc', hcnt]
        rw [findCoordFuzzy, if_neg hc, if_neg hcnt, List.find?, hp, ih]

/-- **C8, amended.** For every value string the locator returns exactly what
the amended specification describes: the box of the first block with
non-empty text, a 4-entry bbox, and text containing the trimmed lower-cased
value; otherwise, when the trimmed value has at least two words, the box of
the first block with non-empty text, a 4-entry bbox, and at least half of the
value's words present; otherwise no box.  Exact containment is strictly
preferred over any fuzzy overlap, and a falsy `json_content` yields no box. -/
theorem findCoordinateMatchesSpec :
    (∀ (v : String) (blocks : List Block),
        findCoordinateForValue (.jstr v) (some blocks) = .ok (findCoordSpec v blocks)) ∧
      ∀ v : JVal, findCoordinateForValue v none = .ok none := by
  constructor
  · intro v blocks
    cases blocks with
    | nil =>
      unfold findCoordSpec
      simp [findCoordinateForValue, List.find?]
    | cons b bs =>
      cases hfind : List.find? (blockExactMatch (pyStrip (pyLower v))) (b :: bs) with
      | some bf =>
        simp [findCoordinateForValue, findCoordSpec, findCoordExact_eq_find, hfind]
      | none =>
        simp only [findCoordinateForValue, findCoordSpec, findCoordExact_eq_find, hfind,
          List.isEmpty_cons, Bool.false_eq_true, if_false, Option.map_none']
        by_cases hws : 2 ≤ (pySplitWs (pyStrip (pyLower v))).length
        · simp [hws, findCoordFuzzy_eq_find]
        · simp [hws]
  · intro v
    rfl

/-- An entry of `dictInsert d k v` is an old entry or the inserted pair. -/
theorem dictInsert_mem {β : Type} {d : List (String × β)} {k : String} {v : β}
    {e : String × β} (he : e ∈ dictInsert d k v) : e ∈ d ∨ e = (k, v) := by
  unfold dictInsert at he
  by_cases hk : d.any (fun kv => kv.1 = k)
  · rw [if_pos hk] at he
    rcases List.mem_map.mp he with ⟨kv, hkv, heq⟩
    by_cases hkk : kv.1 = k
    · rw [if_pos hkk] at heq
      exact Or.inr heq.symm
    · rw [if_neg hkk] at heq
      exact Or.inl (heq ▸ hkv)
  · rw [if_neg hk] at he
    rcases List.mem_append.mp he with h | h
    · exact Or.inl h
    · exact Or.inr (List.mem_singleton.mp h)

/-- An entry of a `dictInsert` fold is an initial entry or keyed/valued from
one of the folded items. -/
theorem mem_foldl_dictInsert {α β : Type} (keyf : α → String) (valf : α → β) :
    ∀ (l : List α) (d : List (String × β)) (e : String × β),
      e ∈ l.foldl (fun d x => dictInsert d (keyf x) (valf x)) d →
      e ∈ d ∨ ∃ x ∈ l, e = (keyf x, valf x) := by
  intro l
  induction l with
  | nil =>
    intro d e he
    exact Or.inl he
  | cons x xs ih =>
    intro d e he
    rcases ih (dictInsert d (keyf x) (valf x)) e he with h | ⟨y, hy, hey⟩
    · rcases dictInsert_mem h with h' | h'
      · exact Or.inl h'
      · exact Or.inr ⟨x, List.mem_cons_self x xs, h'⟩
    · exact Or.inr ⟨y, List.mem_cons_of_mem x hy, hey⟩

/-- A successful `dictLookup` returns an entry of the dictionary whose key is
the one looked up. -/
theorem dictLookup_mem {β : Type} {d : List (String × β)} {k : String} {v : β}
    (h : dictLookup d k = some v) : (k, v) ∈ d := by
  unfold dictLookup at h
  cases hf : d.find? (fun kv => kv.1 = k) with
  | none => rw [hf] at h; cases h
  | some e =>
    rw [hf] at h
    have hek : e.1 = k := by
      have := List.find?_some hf
      simpa using this
    have hev : e.2 = v := by
      simpa using h
    have hmem := List.mem_of_find?_eq_some hf
    have : e = (k, v) := by
      cases e
      simp_all
    exact this ▸ hmem

/-- A hit in `requestedMapOf fields` names a requested field, and its key is
that field's normalized (lower-cased, trimmed) form. -/
theorem requestedMapOf_spec {fields : List String} {k c : String}
    (h : dictLookup (requestedMapOf fields) k = some c) :
    c ∈ fields ∧ pyStrip (pyLower c) = k := by
  have hm := dictLookup_mem h
  rcases mem_foldl_dictInsert (fun f => pyStrip (pyLower f)) (fun f => f)
      fields [] (k, c) hm with h0 | ⟨f, hf, heq⟩
  · cases h0
  · have hk : k = pyStrip (pyLower f) := congrArg Prod.fst heq
    have hc : c = f := congrArg Prod.snd heq
    subst hc
    exact ⟨hf, hk.symm⟩

/-- A value of `groupLookupOf tg` is one of the configured (group, columns)
pairs. -/
theorem groupLookupOf_spec {tg : List (String × List String)} {k : String}
    {v : String × List String} (h : (k, v) ∈ groupLookupOf tg) : v ∈ tg := by
  rcases mem_foldl_dictInsert (fun kv : String × List String => pyStrip (pyLower kv.1))
      (fun kv => (kv.1, kv.2)) tg [] (k, v) h with h0 | ⟨x, hx, heq⟩
  · cases h0
  · have hv : v = (x.1, x.2) := congrArg Prod.snd heq
    rw [hv]
    exact hx

/-- A resolved group is one of the configured pairs. -/
theorem resolveGroup_mem {gl : List (String × (String × List String))} {gn : JVal}
    {v : String × List String} (h : resolveGroup gl gn = some v) :
    ∃ k, (k, v) ∈ gl := by
  unfold resolveGroup at h
  by_cases ht : gn.pyTruthy
  · rw [if_neg (by simp [ht])] at h
    cases hl : dictLookup gl (normName gn) with
    | some w =>
      rw [hl] at h
      cases h
      exact ⟨normName gn, dictLookup_mem hl⟩
    | none =>
      rw [hl] at h
      match gl, h with
      | [(k, w)], h =>
        cases h
        exact ⟨k, List.mem_singleton.mpr rfl⟩
      | [], h => cases h
      | (k1, w1) :: (k2, w2) :: rest, h =>
        simp only at h
        cases hf : ((k1, w1) :: (k2, w2) :: rest).find?
            (fun kv => strIn (normName gn) kv.1 || strIn kv.1 (normName gn)) with
        | none => rw [hf] at h; cases h
        | some e =>
          rw [hf] at h
          cases h
          exact ⟨e.1, by simpa using List.mem_of_find?_eq_some hf⟩
  · rw [if_pos (by simp [ht])] at h
    match gl, h with
    | [(k, w)], h =>
      cases h
      exact ⟨k, List.mem_singleton.mpr rfl⟩

/-- A record built for one table cell carries the schema column name and the
canonical group. -/
theorem columnRecord_spec {canonical : String} {rowIndex : Nat}
    {jc : Option (List Block)} {rv : List (String × JVal)}
    {nk : List (String × String)} {col : String} {r : FieldData}
    (h : columnRecord canonical rowIndex jc rv nk col = .ok r) :
    r.name = col ∧ r.group = some canonical := by
  unfold columnRecord at h
  simp only [bind, Except.bind] at h
  cases hcell : cellValueConf ((dictLookup rv ((dictLookup nk (pyStrip (pyLower col))).getD col)).getD .jnull) with
  | error e =>
    rw [hcell] at h
    cases h
  | ok vc =>
    rw [hcell] at h
    rcases vc with ⟨v, conf⟩
    dsimp only at h
    by_cases hj : jc.isSome && !JVal.pyEq v (.jstr "Не найдено")
    · rw [if_pos hj] at h
      cases hco : findCoordinateForValue v jc with
      | error e => rw [hco] at h; cases h
      | ok co =>
        rw [hco] at h
        cases h
        exact ⟨rfl, rfl⟩
    · rw [if_neg hj] at h
      cases h
      exact ⟨rfl, rfl⟩

/-- Records of one row are named by the schema columns and grouped by the
canonical group. -/
theorem processColumns_spec {canonical : String} {rowIndex : Nat}
    {jc : Option (List Block)} {rv : List (String × JVal)}
    {nk : List (String × String)} :
    ∀ {cols : List String} {out : List FieldData},
      processColumns canonical rowIndex jc rv nk cols = .ok out →
      ∀ r ∈ out, r.name ∈ cols ∧ r.group = some canonical := by
  intro cols
  induction cols with
  | nil =>
    intro out h r hr
    cases h
    cases hr
  | cons c rest ih =>
    intro out h r hr
    unfold processColumns at h
    cases h1 : columnRecord canonical rowIndex jc rv nk c with
    | error e => rw [h1] at h; cases h
    | ok r0 =>
      rw [h1] at h
      cases h2 : processColumns canonical rowIndex jc rv nk rest with
      | error e => rw [h2] at h; cases h
      | ok rs =>
        rw [h2] at h
        cases h
        rcases List.mem_cons.mp hr with rfl | hr'
        · rcases columnRecord_spec h1 with ⟨hn, hg⟩
          exact ⟨hn ▸ List.mem_cons_self c rest, hg⟩
        · rcases ih h2 r hr' with ⟨hn, hg⟩
          exact ⟨List.mem_cons_of_mem c hn, hg⟩

/-- Records of all rows of one table are named by the schema columns and
grouped by the canonical group. -/
theorem processRows_spec {canonical : String} {cols : List String}
    {jc : Option (List Block)} :
    ∀ {rows : List JVal} {idx : Nat} {out : List FieldData},
      processRows canonical cols jc idx rows = .ok out →
      ∀ r ∈ out, r.name ∈ cols ∧ r.group = some canonical := by
  intro rows
  induction rows with
  | nil =>
    intro idx out h r hr
    cases h
    cases hr
  | cons row rest ih =>
    intro idx out h r hr
    unfold processRows at h
    cases hrv : rowValuesOf cols row with
    | none =>
      rw [hrv] at h
      simp only [bind, Except.bind] at h
      cases h2 : processRows canonical cols jc (idx + 1) rest with
      | error e => rw [h2] at h; cases h
      | ok more =>
        rw [h2] at h
        cases h
        rcases List.mem_append.mp hr with hr' | hr'
        · cases hr'
        · exact ih h2 r hr'
    | some rv =>
      rw [hrv] at h
      simp only [bind, Except.bind] at h
      cases h1 : processColumns canonical idx jc rv (normalizedKeysOf rv) cols with
      | error e => rw [h1] at h; cases h
      | ok recs =>
        rw [h1] at h
        cases h2 : processRows canonical cols jc (idx + 1) rest with
        | error e => rw [h2] at h; cases h
        | ok more =>
          rw [h2] at h
          cases h
          rcases List.mem_append.mp hr with hr' | hr'
          · exact processColumns_spec h1 r hr'
          · exact ih h2 r hr'

/-- Every record of one response table is grouped by a configured group and
named by one of that group's schema columns. -/
theorem processOneTable_spec {gl : List (String × (String × List String))}
    {jc : Option (List Block)} {t : JVal} {out : List FieldData}
    (h : processOneTable gl jc t = .ok out) :
    ∀ r ∈ out, ∃ k v, (k, v) ∈ gl ∧ r.group = some v.1 ∧ r.name ∈ v.2 := by
  intro r hr
  unfold processOneTable at h
  cases t with
  | jobj kvs =>
    cases hres : resolveGroup gl (groupNameOf (.jobj kvs)) with
    | none =>
      rw [hres] at h
      cases h
      cases hr
    | some v =>
      rw [hres] at h
      rcases v with ⟨canonical, columns⟩
      rcases resolveGroup_mem hres with ⟨k, hk⟩
      cases hrows : tableRowsOf (.jobj kvs) with
      | jarr rs =>
        rw [hrows] at h
        rcases processRows_spec h r hr with ⟨hn, hg⟩
        exact ⟨k, (canonical, columns), hk, hg, hn⟩
      | jnull => rw [hrows] at h; cases h; cases hr
      | jbool b => rw [hrows] at h; cases h; cases hr
      | jnum q => rw [hrows] at h; cases h; cases hr
      | jstr s => rw [hrows] at h; cases h; cases hr
      | jobj o => rw [hrows] at h; cases h; cases hr
  | jnull => cases h; cases hr
  | jbool b => cases h; cases hr
  | jnum q => cases h; cases hr
  | jstr s => cases h; cases hr
  | jarr l => cases h; cases hr

/-- Every record of the whole table section is grouped by a configured group
and named by one of that group's schema columns. -/
theorem processTables_spec {gl : List (String × (String × List String))}
    {jc : Option (List Block)} :
    ∀ {ts : List JVal} {out : List FieldData},
      processTables gl jc ts = .ok out →
      ∀ r ∈ out, ∃ k v, (k, v) ∈ gl ∧ r.group = some v.1 ∧ r.name ∈ v.2 := by
  intro ts
  induction ts with
  | nil =>
    intro out h r hr
    cases h
    cases hr
  | cons t rest ih =>
    intro out h r hr
    unfold processTables at h
    simp only [bind, Except.bind] at h
    cases h1 : processOneTable gl jc t with
    | error e => rw [h1] at h; cases h
    | ok recs =>
      rw [h1] at h
      cases h2 : processTables gl jc rest with
      | error e => rw [h2] at h; cases h
      | ok more =>
        rw [h2] at h
        cases h
        rcases List.mem_append.mp hr with hr' | hr'
        · exact processOneTable_spec h1 r hr'
        · exact ih h2 r hr'

/-- Records built for one matched response field carry its canonical
requested name and no group. -/
theorem processValues_spec {canonical : String} {f : JVal} {jc : Option (List Block)} :
    ∀ {vs : List JVal} {out : List FieldData},
      processValues canonical f jc vs = .ok out →
      ∀ r ∈ out, r.name = canonical ∧ r.group = none := by
  intro vs
  induction vs with
  | nil =>
    intro out h r hr
    cases h
    cases hr
  | cons v rest ih =>
    intro out h r hr
    unfold processValues at h
    simp only [bind, Except.bind] at h
    cases hc : pyFloat (JVal.jgetD f "confidence" (.jnum 0.8)) with
    | error e => rw [hc] at h; cases h
    | ok conf =>
      rw [hc] at h
      dsimp only at h
      by_cases hj : jc.isSome &&
          !JVal.pyEq (if JVal.pyEq v .jnull || JVal.pyEq v (.jstr "") then
            .jstr "Не найдено" else v) (.jstr "Не найдено")
      · rw [if_pos hj] at h
        cases hco : findCoordinateForValue
            (if JVal.pyEq v .jnull || JVal.pyEq v (.jstr "") then .jstr "Не найдено" else v) jc with
        | error e => rw [hco] at h; cases h
        | ok co =>
          rw [hco] at h
          dsimp only at h
          cases hm : processValues canonical f jc rest with
          | error e => rw [hm] at h; cases h
          | ok more =>
            rw [hm] at h
            cases h
            rcases List.mem_cons.mp hr with rfl | hr'
            · exact ⟨rfl, rfl⟩
            · exact ih hm r hr'
      · rw [if_neg hj] at h
        cases hm : processValues canonical f jc rest with
        | error e => rw [hm] at h; cases h
        | ok more =>
          rw [hm] at h
          cases h
          rcases List.mem_cons.mp hr with rfl | hr'
          · exact ⟨rfl, rfl⟩
          · exact ih hm r hr'

/-- Every record of the scalar-field loop is canonically named by a hit in
`requested_map` and carries no group. -/
theorem processLLMFields_spec {rm : List (String × String)} {jc : Option (List Block)} :
    ∀ {es : List JVal} {seen : List (String × Nat)} {out : List FieldData}
      {seen2 : List (String × Nat)},
      processLLMFields rm jc es seen = .ok (out, seen2) →
      ∀ r ∈ out, (∃ k, dictLookup rm k = some r.name) ∧ r.group = none := by
  intro es
  induction es with
  | nil =>
    intro seen out seen2 h r hr
    cases h
    cases hr
  | cons f rest ih =>
    intro seen out seen2 h r hr
    unfold processLLMFields at h
    cases f with
    | jobj kvs =>
      by_cases hname : (JVal.jget (.jobj kvs) "name").pyTruthy
      · rw [if_neg (by simp [hname])] at h
        cases hlook : dictLookup rm (normName (JVal.jget (.jobj kvs) "name")) with
        | none =>
          rw [hlook] at h
          exact ih h r hr
        | some canonical =>
          rw [hlook] at h
          simp only [bind, Except.bind] at h
          cases hrecs : processValues canonical (.jobj kvs) jc (fieldEntryValues (.jobj kvs)) with
          | error e => rw [hrecs] at h; cases h
          | ok recs =>
            rw [hrecs] at h
            dsimp only at h
            cases hmore : processLLMFields rm jc rest
                (if recs.isEmpty then seen
                 else dictInsert seen canonical ((dictLookup seen canonical).getD 0 + recs.length)) with
            | error e => rw [hmore] at h; cases h
            | ok p =>
              rw [hmore] at h
              rcases p with ⟨more, seenEnd⟩
              cases h
              rcases List.mem_append.mp hr with hr' | hr'
              · rcases processValues_spec hrecs r hr' with ⟨hn, hg⟩
                exact ⟨⟨normName (JVal.jget (.jobj kvs) "name"), hn ▸ hlook⟩, hg⟩
              · exact ih hmore r hr'
      · rw [if_pos (by simp [hname])] at h
        exact ih h r hr
    | jnull => exact ih h r hr
    | jbool b => exact ih h r hr
    | jnum q => exact ih h r hr
    | jstr s => exact ih h r hr
    | jarr l => exact ih h r hr

/-- Decomposition of a successful `_parse_extracted_fields` body run into its
table section, scalar-field section and placeholder section. -/
theorem parseExtractedFieldsData_ok {data : JVal} {fields : List String}
    {jc : Option (List Block)} {tg : List (String × List String)} {l : List FieldData}
    (h : parseExtractedFieldsData data fields jc tg = .ok l) :
    data.isObj = true ∧
      ∃ tableRecs fieldRecs seen,
        tableSection data (groupLookupOf tg) jc = .ok tableRecs ∧
        (∃ elems, iterElems (JVal.jgetD data "fields" (.jarr [])) = .ok elems ∧
          processLLMFields (requestedMapOf fields) jc elems [] = .ok (fieldRecs, seen)) ∧
        l = tableRecs ++ fieldRecs ++ addMissing seen fields := by
  cases data with
  | jobj kvs =>
    refine ⟨rfl, ?_⟩
    unfold parseExtractedFieldsData at h
    simp only [bind, Except.bind] at h
    cases htab : tableSection (.jobj kvs) (groupLookupOf tg) jc with
    | error e => rw [htab] at h; cases h
    | ok tableRecs =>
      rw [htab] at h
      dsimp only at h
      cases hel : iterElems (JVal.jgetD (.jobj kvs) "fields" (.jarr [])) with
      | error e => rw [hel] at h; cases h
      | ok elems =>
        rw [hel] at h
        dsimp only at h
        cases hfl : processLLMFields (requestedMapOf fields) jc elems [] with
        | error e => rw [hfl] at h; cases h
        | ok p =>
          rw [hfl] at h
          rcases p with ⟨fieldRecs, seen⟩
          cases h
          exact ⟨tableRecs, fieldRecs, seen, rfl, ⟨elems, rfl, hfl⟩, rfl⟩
  | jnull => cases h
  | jbool b => cases h
  | jnum q => cases h
  | jstr s => cases h
  | jarr xs => cases h

/-- Placeholder records are named by requested fields and carry no group. -/
theorem addMissing_spec {seen : List (String × Nat)} {fields : List String}
    {r : FieldData} (hr : r ∈ addMissing seen fields) :
    r.name ∈ fields ∧ r.group = none := by
  rcases List.mem_filterMap.mp hr with ⟨f, hf, hsome⟩
  by_cases hs : (dictLookup seen f).getD 0 = 0
  · rw [if_pos hs] at hsome
    cases hsome
    exact ⟨hf, rfl⟩
  · rw [if_neg hs] at hsome
    cases hsome

/-- **C3, counterexample.**  The requested name `invoice` is contained in the
response field name `invoice no` (bidirectional substring containment per
the claim), yet the response entry is discarded and only the not-found
placeholder is emitted: matching is exact equality of the lower-cased,
trimmed names only. -/
theorem scalarSubstringMatchCounterexample :
    parseExtractedFieldsData
        (.jobj [("fields", .jarr [.jobj [("name", .jstr "invoice no"),
          ("value", .jstr "X"), ("confidence", .jnum 0.9)]])])
        ["invoice"] none [] = .ok [notFoundRecord "invoice"] ∧
      strIn "invoice" "invoice no" = true ∧
      ∀ r ∈ [notFoundRecord "invoice"], r.value ≠ JVal.jstr "X" := by
  refine ⟨rfl, rfl, ?_⟩
  intro r hr
  have hr' : r = notFoundRecord "invoice" := List.mem_singleton.mp hr
  subst hr'
  intro hv
  injection hv with hv'
  exact absurd hv' (by decide)

/-- **C3, amended.**  Scalar name matching normalizes both sides by
lower-casing and trimming surrounding whitespace only, and accepts a match
only on exact equality of the normalized names: (i) every scalar
(ungrouped) record of the output is named by a requested field; (ii) a
response entry whose normalized name hits no requested name contributes
nothing; (iii) a response entry whose normalized name hits a requested name
emits records under that requested field's canonical spelling; (iv) a hit in
the requested map is a requested field whose normalized form is exactly the
looked-up key. -/
theorem scalarNameMatchingExactOnly :
    (∀ (data : JVal) (fields : List String) (jc : Option (List Block))
        (tg : List (String × List String)) (l : List FieldData),
        parseExtractedFieldsData data fields jc tg = .ok l →
        ∀ r ∈ l, r.group = none → r.name ∈ fields) ∧
      (∀ (rm : List (String × String)) (jc : Option (List Block))
          (kvs : List (String × JVal)) (seen : List (String × Nat)),
          (JVal.jget (.jobj kvs) "name").pyTruthy = true →
          dictLookup rm (normName (JVal.jget (.jobj kvs) "name")) = none →
          processLLMFields rm jc [.jobj kvs] seen = .ok ([], seen)) ∧
      (∀ (rm : List (String × String)) (jc : Option (List Block)) (f : JVal)
          (seen : List (String × Nat)) (canonical : String) (out : List FieldData)
          (seen2 : List (String × Nat)),
          dictLookup rm (normName (JVal.jget f "name")) = some canonical →
          processLLMFields rm jc [f] seen = .ok (out, seen2) →
          ∀ r ∈ out, r.name = canonical) ∧
      (∀ (fields : List String) (k c : String),
          dictLookup (requestedMapOf fields) k = some c →
          c ∈ fields ∧ pyStrip (pyLower c) = k) := by
  refine ⟨?_, ?_, ?_, ?_⟩
  · intro data fields jc tg l h r hr hg
    rcases parseExtractedFieldsData_ok h with
      ⟨_, tableRecs, fieldRecs, seen, htab, ⟨elems, _, hfl⟩, hl⟩
    subst hl
    rcases List.mem_append.mp hr with hr' | hr'
    · rcases List.mem_append.mp hr' with hta | hfr
      · have htabrecs : processTables (groupLookupOf tg) jc
            (match JVal.jgetD data "tables" (.jarr []) with
              | .jarr ts => ts
              | _ => []) = .ok tableRecs := by
          unfold tableSection at htab
          cases hv : JVal.jgetD data "tables" (.jarr []) with
          | jarr ts => rw [hv] at htab; exact htab
          | jnull => rw [hv] at htab; cases htab; rfl
          | jbool b => rw [hv] at htab; cases htab; rfl
          | jnum q => rw [hv] at htab; cases htab; rfl
          | jstr s => rw [hv] at htab; cases htab; rfl
          | jobj o => rw [hv] at htab; cases htab; rfl
        have := processTables_spec htabrecs r hta
        rcases this with ⟨k, v, _, hgrp, _⟩
        rw [hg] at hgrp
        cases hgrp
      · rcases processLLMFields_spec hfl r hfr with ⟨⟨k, hk⟩, _⟩
        exact (requestedMapOf_spec hk).1
    · exact (addMissing_spec hr').1
  · intro rm jc kvs seen hname hlook
    simp [processLLMFields, hname, hlook]
  · intro rm jc f seen canonical out seen2 hlook h r hr
    cases f with
    | jobj kvs =>
      unfold processLLMFields at h
      by_cases hname : (JVal.jget (.jobj kvs) "name").pyTruthy
      · rw [if_neg (by simp [hname]), hlook] at h
        simp only [bind, Except.bind] at h
        cases hrecs : processValues canonical (.jobj kvs) jc (fieldEntryValues (.jobj kvs)) with
        | error e => rw [hrecs] at h; cases h
        | ok recs =>
          rw [hrecs] at h
          dsimp only at h
          simp only [processLLMFields] at h
          cases h
          rcases List.mem_append.mp hr with hr' | hr'
          · exact (processValues_spec hrecs r hr').1
          · cases hr'
      · rw [if_pos (by simp [hname])] at h
        simp only [processLLMFields] at h
        cases h
        cases hr
    | jnull => simp only [processLLMFields] at h; cases h; cases hr
    | jbool b => simp only [processLLMFields] at h; cases h; cases hr
    | jnum q => simp only [processLLMFields] at h; cases h; cases hr
    | jstr s => simp only [processLLMFields] at h; cases h; cases hr
    | jarr xs => simp only [processLLMFields] at h; cases h; cases hr
  · intro fields k c h
    exact requestedMapOf_spec h

/-- Witness for the amended C3 at the `invoice` / `invoice no` inputs. -/
theorem scalarNameMatchingExactOnlyWitness :
    (∀ r ∈ [notFoundRecord "invoice"], r.group = none → r.name ∈ ["invoice"]) ∧
      processLLMFields (requestedMapOf ["invoice"]) none
          [.jobj [("name", .jstr "invoice no"), ("value", .jstr "X"),
            ("confidence", .jnum 0.9)]] [] = .ok ([], []) ∧
      (∀ r ∈ [(⟨"invoice", .jstr "X", 0.9, none, none, none⟩ : FieldData)],
        r.name = "invoice") ∧
      ("invoice" ∈ ["invoice"] ∧ pyStrip (pyLower "invoice") = "invoice") := by
  refine ⟨?_, ?_, ?_, ?_⟩
  · exact scalarNameMatchingExactOnly.1
      (.jobj [("fields", .jarr [.jobj [("name", .jstr "invoice no"),
        ("value", .jstr "X"), ("confidence", .jnum 0.9)]])])
      ["invoice"] none [] [notFoundRecord "invoice"] rfl
  · exact scalarNameMatchingExactOnly.2.1 (requestedMapOf ["invoice"]) none
      [("name", .jstr "invoice no"), ("value", .jstr "X"), ("confidence", .jnum 0.9)]
      [] rfl rfl
  · exact scalarNameMatchingExactOnly.2.2.1 (requestedMapOf ["invoice"]) none
      (.jobj [("name", .jstr "invoice"), ("value", .jstr "X"), ("confidence", .jnum 0.9)])
      [] "invoice" [⟨"invoice", .jstr "X", 0.9, none, none, none⟩]
      [("invoice", 1)] rfl rfl
  · exact scalarNameMatchingExactOnly.2.2.2 ["invoice"] "invoice" "invoice" rfl

/-- **C4, counterexample.**  Two groups are configured (`"A"` and `"a"`),
the response table's group `"zzz"` has no exact and no substring match, and
the claim says such a table produces no records.  But the two configured
names collide after lower-casing, so `group_lookup` holds a single entry and
the single-group default fires: the table is accepted and emits a record. -/
theorem tableGroupCollisionCounterexample :
    parseExtractedFieldsData
        (.jobj [("tables", .jarr [.jobj [("group", .jstr "zzz"),
          ("rows", .jarr [.jobj [("y", .jstr "v")]])]])])
        [] none [("A", ["x"]), ("a", ["y"])] =
      .ok [⟨"y", .jstr "v", 0.8, none, some "a", some 0⟩] ∧
      ([("A", ["x"]), ("a", ["y"])] : List (String × List String)).length = 2 ∧
      strIn "zzz" "a" = false ∧ strIn "a" "zzz" = false ∧
      strIn "zzz" "A" = false ∧ strIn "A" "zzz" = false :=
  ⟨rfl, rfl, rfl, rfl, rfl, rfl⟩

/-- **C4, amended.**  (i) Every table-derived record (a record carrying a
group) is grouped by a configured group name and named by one of that
group's schema-declared columns — response columns outside the schema are
never emitted; (ii) when the configured groups have more than one *distinct
normalized* name, a table whose truthy group name has no exact normalized
match and no bidirectional substring match produces no records; (iii) a
missing or empty cell value defaults to `"Не найдено"`, and a cell that is
not a dict — or a dict without a `confidence` key — is extracted at the
default confidence `0.8`. -/
theorem tableReconciliationSchemaOnly :
    (∀ (data : JVal) (fields : List String) (jc : Option (List Block))
        (tg : List (String × List String)) (l : List FieldData),
        parseExtractedFieldsData data fields jc tg = .ok l →
        ∀ r ∈ l, ∀ g, r.group = some g →
          ∃ cols, (g, cols) ∈ tg ∧ r.name ∈ cols) ∧
      (∀ (tg : List (String × List String)) (jc : Option (List Block)) (t : JVal),
          2 ≤ (groupLookupOf tg).length →
          (groupNameOf t).pyTruthy = true →
          dictLookup (groupLookupOf tg) (normName (groupNameOf t)) = none →
          (∀ kv ∈ groupLookupOf tg,
            strIn (normName (groupNameOf t)) kv.1 = false ∧
            strIn kv.1 (normName (groupNameOf t)) = false) →
          processOneTable (groupLookupOf tg) jc t = .ok []) ∧
      (∀ c : JVal, c.isObj = false →
          cellValueConf c =
            .ok ((if JVal.pyEq c .jnull || JVal.pyEq c (.jstr "") then
              .jstr "Не найдено" else c), 0.8)) ∧
      (∀ kvs : List (String × JVal),
          dictLookup kvs "confidence" = none →
          cellValueConf (.jobj kvs) =
            .ok ((if JVal.pyEq (JVal.jget (.jobj kvs) "value") .jnull ||
                JVal.pyEq (JVal.jget (.jobj kvs) "value") (.jstr "") then
              .jstr "Не найдено" else JVal.jget (.jobj kvs) "value"), 0.8)) := by
  refine ⟨?_, ?_, ?_, ?_⟩
  · intro data fields jc tg l h r hr g hg
    rcases parseExtractedFieldsData_ok h with
      ⟨_, tableRecs, fieldRecs, seen, htab, ⟨elems, _, hfl⟩, hl⟩
    subst hl
    rcases List.mem_append.mp hr with hr' | hr'
    · rcases List.mem_append.mp hr' with hta | hfr
      · have htabrecs : processTables (groupLookupOf tg) jc
            (match JVal.jgetD data "tables" (.jarr []) with
              | .jarr ts => ts
              | _ => []) = .ok tableRecs := by
          unfold tableSection at htab
          cases hv : JVal.jgetD data "tables" (.jarr []) with
          | jarr ts => rw [hv] at htab; exact htab
          | jnull => rw [hv] at htab; cases htab; rfl
          | jbool b => rw [hv] at htab; cases htab; rfl
          | jnum q => rw [hv] at htab; cases htab; rfl
          | jstr s => rw [hv] at htab; cases htab; rfl
          | jobj o => rw [hv] at htab; cases htab; rfl
        rcases processTables_spec htabrecs r hta with ⟨k, v, hkv, hgrp, hname⟩
        rw [hg] at hgrp
        have hv1 : v.1 = g := by
          injection hgrp with h'
          exact h'.symm
        refine ⟨v.2, ?_, hname⟩
        have := groupLookupOf_spec hkv
        rw [← hv1]
        simpa using this
      · rcases processLLMFields_spec hfl r hfr with ⟨_, hgr⟩
        rw [hg] at hgr
        cases hgr
    · have := (addMissing_spec hr').2
      rw [hg] at this
      cases this
  · intro tg jc t hlen htruthy hlook hnosub
    cases t with
    | jobj kvs =>
      unfold processOneTable
      have hres : resolveGroup (groupLookupOf tg) (groupNameOf (.jobj kvs)) = none := by
        unfold resolveGroup
        rw [if_neg (by simp [htruthy]), hlook]
        match hgl : groupLookupOf tg, hlen with
        | (k1, v1) :: (k2, v2) :: rest, _ =>
          simp only
          rw [List.find?_eq_none.mpr ?_]
          · rfl
          · intro kv hkv
            rcases hnosub kv (hgl ▸ hkv) with ⟨h1, h2⟩
            simp [h1, h2]
      rw [hres]
    | jnull => rfl
    | jbool b => rfl
    | jnum q => rfl
    | jstr s => rfl
    | jarr xs => rfl
  · intro c hc
    cases c <;> simp_all [cellValueConf, JVal.isObj]
  · intro kvs hconf
    unfold cellValueConf
    simp only [JVal.jgetD, hconf, Option.getD_none]
    rfl

/-- Witness for the amended C4 at concrete inputs. -/
theorem tableReconciliationSchemaOnlyWitness :
    (∀ r ∈ [(⟨"y", .jstr "v", 0.8, none, some "a", some 0⟩ : FieldData)], ∀ g,
        r.group = some g →
        ∃ cols, (g, cols) ∈ [("A", ["x"]), ("a", ["y"])] ∧ r.name ∈ cols) ∧
      processOneTable (groupLookupOf [("Items", ["sku"]), ("Totals", ["sum"])]) none
          (.jobj [("group", .jstr "zzz"),
            ("rows", .jarr [.jobj [("sku", .jstr "v")]])]) = .ok [] ∧
      cellValueConf .jnull = .ok (.jstr "Не найдено", 0.8) ∧
      cellValueConf (.jobj [("value", .jstr "w")]) = .ok (.jstr "w", 0.8) := by
  refine ⟨?_, ?_, ?_, ?_⟩
  · exact tableReconciliationSchemaOnly.1
      (.jobj [("tables", .jarr [.jobj [("group", .jstr "zzz"),
        ("rows", .jarr [.jobj [("y", .jstr "v")]])]])])
      [] none [("A", ["x"]), ("a", ["y"])]
      [⟨"y", .jstr "v", 0.8, none, some "a", some 0⟩] rfl
  · exact tableReconciliationSchemaOnly.2.1 [("Items", ["sku"]), ("Totals", ["sum"])]
      none (.jobj [("group", .jstr "zzz"), ("rows", .jarr [.jobj [("sku", .jstr "v")]])])
      (by decide) rfl rfl (by decide)
  · exact tableReconciliationSchemaOnly.2.2.1 .jnull rfl
  · have := tableReconciliationSchemaOnly.2.2.2 [("value", .jstr "w")] rfl
    simpa using this

/-- The candidate score exactly as §4.3 words it, with no truthiness guards:
+3 when the name occurs as a substring of the lowered text, +1 per schema
field occurring as a substring. -/
def scoreSpecOf (textLower : String) (d : DocTypeItem) : Nat :=
  (if strIn (pyLower d.name) textLower then 3 else 0) +
    (d.fields.countP (fun f => strIn (pyLower f) textLower))

/-- Nothing non-empty is a substring of the empty string. -/
theorem strIn_empty_right (x : String) : strIn x "" = x.data.isEmpty := rfl

/-- Every candidate scores zero against empty text. -/
theorem scoreOf_empty_text (d : DocTypeItem) : scoreOf (pyLower "") d = 0 := by
  have hlow : pyLower "" = "" := rfl
  rw [hlow]
  unfold scoreOf
  have hname : (pyLower d.name ≠ "" && strIn (pyLower d.name) "") = false := by
    by_cases h : pyLower d.name = ""
    · simp [h]
    · rw [strIn_empty_right]
      have : (pyLower d.name).data.isEmpty = false := by
        cases hd : (pyLower d.name).data with
        | nil =>
          exfalso
          apply h
          cases hpl : pyLower d.name
          simp_all
        | cons a l => rfl
      simp [this]
  rw [hname]
  simp only [if_false, Bool.false_eq_true]
  have : d.fields.countP (fun f => pyLower f ≠ "" && strIn (pyLower f) "") = 0 := by
    rw [List.countP_eq_zero]
    intro f _
    by_cases h : pyLower f = ""
    · simp [h]
    · rw [strIn_empty_right]
      have : (pyLower f).data.isEmpty = false := by
        cases hd : (pyLower f).data with
        | nil =>
          exfalso
          apply h
          cases hpl : pyLower f
          simp_all
        | cons a l => rfl
      simp [this]
  omega

/-- The strict-improvement accumulator loop of
`_score_document_types_simple` selects the first candidate achieving the
maximum score, whenever that maximum beats the accumulator. -/
theorem scoreLoop_spec (tl : String) :
    ∀ (l : List DocTypeItem) (acc : Nat) (best : Option String),
      scoreLoop tl l acc best =
        if acc < (l.map (scoreOf tl)).foldr max 0 then
          (l.find? (fun d => scoreOf tl d = (l.map (scoreOf tl)).foldr max 0)).map
            (fun d => d.id)
        else best := by
  intro l
  induction l with
  | nil =>
    intro acc best
    simp [scoreLoop]
  | cons d rest ih =>
    intro acc best
    simp only [scoreLoop, List.map_cons, List.foldr_cons]
    by_cases hacc : acc < scoreOf tl d
    · rw [if_pos hacc, ih]
      by_cases hrest : scoreOf tl d < (rest.map (scoreOf tl)).foldr max 0
      · rw [if_pos hrest]
        have hM : max (scoreOf tl d) ((rest.map (scoreOf tl)).foldr max 0) =
            (rest.map (scoreOf tl)).foldr max 0 := max_eq_right (le_of_lt hrest)
        simp only [hM]
        rw [if_pos (lt_trans hacc hrest)]
        have hpred : (fun d' => decide (scoreOf tl d' =
            (rest.map (scoreOf tl)).foldr max 0)) d = false := by
          simp [Nat.ne_of_lt hrest]
        simp only [List.find?, hpred]
      · have hM : max (scoreOf tl d) ((rest.map (scoreOf tl)).foldr max 0) =
            scoreOf tl d := max_eq_left (Nat.le_of_not_lt hrest)
        rw [if_neg hrest]
        simp only [hM]
        rw [if_pos hacc]
        have hpred : (fun d' => decide (scoreOf tl d' = scoreOf tl d)) d = true := by
          simp
        simp only [List.find?, hpred]
        rfl
    · rw [if_neg hacc, ih]
      have hda : scoreOf tl d ≤ acc := Nat.le_of_not_lt hacc
      by_cases hrest : acc < (rest.map (scoreOf tl)).foldr max 0
      · rw [if_pos hrest]
        have hM : max (scoreOf tl d) ((rest.map (scoreOf tl)).foldr max 0) =
            (rest.map (scoreOf tl)).foldr max 0 :=
          max_eq_right (le_of_lt (Nat.lt_of_le_of_lt hda hrest))
        simp only [hM]
        rw [if_pos hrest]
        have hpred : (fun d' => decide (scoreOf tl d' =
            (rest.map (scoreOf tl)).foldr max 0)) d = false := by
          simp [Nat.ne_of_lt (Nat.lt_of_le_of_lt hda hrest)]
        simp only [List.find?, hpred]
      · rw [if_neg hrest]
        have hM : ¬ acc < max (scoreOf tl d) ((rest.map (scoreOf tl)).foldr max 0) := by
          rw [Nat.not_lt]
          exact max_le hda (Nat.le_of_not_lt hrest)
        rw [if_neg hM]

/-- **C7.** (i) `_score_document_types_simple` implements exactly the
specification's selection rule: the first-seen candidate achieving the
maximum score when that maximum is strictly positive, `none` when every
candidate scores zero (including empty text or no candidates); (ii) on
candidates with non-empty names and field names, the code's score is exactly
the specification's `+3` name / `+1` per field substring score; (iii) when
the classifier — engine and score fallback both — abstains and exactly one
candidate exists, the sync wrapper picks that candidate by default. -/
theorem classificationScoreAndDefault :
    (∀ (text : String) (dts : List DocTypeItem),
        scoreDocumentTypesSimple text dts = specArgmaxFirst text dts) ∧
      (∀ (tl : String) (d : DocTypeItem), d.name ≠ "" → (∀ f ∈ d.fields, f ≠ "") →
          scoreOf tl d = scoreSpecOf tl d) ∧
      (∀ (configured : Bool) (genResult : Except PyExc String) (text : String)
          (d : DocTypeItem),
          classifyDocumentType configured genResult text [d] = none →
          classifyDocumentTypeSync configured genResult text [d] = (some d.id, [d])) := by
  refine ⟨?_, ?_, ?_⟩
  · intro text dts
    unfold scoreDocumentTypesSimple specArgmaxFirst
    by_cases htext : text = ""
    · rw [if_pos (by simp [htext])]
      have hall : ∀ d ∈ dts, scoreOf (pyLower text) d = 0 := by
        intro d _
        rw [htext]
        exact scoreOf_empty_text d
      have hm : (dts.map (scoreOf (pyLower text))).foldr max 0 = 0 := by
        induction dts with
        | nil => rfl
        | cons d rest ih =>
          simp only [List.map_cons, List.foldr_cons]
          rw [hall d (List.mem_cons_self d rest),
            ih (fun d' hd' => hall d' (List.mem_cons_of_mem d hd'))]
          simp
      rw [if_pos hm]
    · by_cases hdts : dts.isEmpty
      · rw [if_pos (by simp [hdts])]
        have hnil : dts = [] := List.isEmpty_iff.mp hdts
        subst hnil
        simp
      · rw [if_neg (by simp [htext, hdts]), scoreLoop_spec]
        by_cases hm : (dts.map (scoreOf (pyLower text))).foldr max 0 = 0
        · rw [if_pos hm, if_neg (by omega)]
        · rw [if_neg hm, if_pos (by omega)]
  · intro tl d hname hfields
    unfold scoreOf scoreSpecOf
    have hn : (pyLower d.name ≠ "" && strIn (pyLower d.name) tl) =
        strIn (pyLower d.name) tl := by
      have : pyLower d.name ≠ "" := fun h => hname ((pyLower_eq_empty_iff d.name).mp h)
      simp [this]
    rw [hn]
    have hc : d.fields.countP (fun f => pyLower f ≠ "" && strIn (pyLower f) tl) =
        d.fields.countP (fun f => strIn (pyLower f) tl) := by
      apply List.countP_congr
      intro f hf
      have : pyLower f ≠ "" := fun h => hfields f hf ((pyLower_eq_empty_iff f).mp h)
      simp [this]
    rw [hc]
  · intro configured genResult text d h
    simp [classifyDocumentTypeSync, h]

/-- Witness for C7 at concrete inputs: an abstaining classifier with a single
candidate picks it, and the score loop equals the specification's argmax. -/
theorem classificationScoreAndDefaultWitness :
    scoreDocumentTypesSimple "some invoice text"
        [⟨"t1", "invoice", ["number"]⟩, ⟨"t2", "act", ["総"]⟩] =
      specArgmaxFirst "some invoice text"
        [⟨"t1", "invoice", ["number"]⟩, ⟨"t2", "act", ["総"]⟩] ∧
      scoreOf "some invoice text" ⟨"t1", "invoice", ["number"]⟩ =
        scoreSpecOf "some invoice text" ⟨"t1", "invoice", ["number"]⟩ ∧
      classifyDocumentTypeSync false (.ok "") "zzz" [⟨"t1", "invoice", ["number"]⟩] =
        (some "t1", [⟨"t1", "invoice", ["number"]⟩]) := by
  refine ⟨?_, ?_, ?_⟩
  · exact classificationScoreAndDefault.1 "some invoice text"
      [⟨"t1", "invoice", ["number"]⟩, ⟨"t2", "act", ["総"]⟩]
  · exact classificationScoreAndDefault.2.1 "some invoice text"
      ⟨"t1", "invoice", ["number"]⟩ (by decide) (by decide)
  · exact classificationScoreAndDefault.2.2 false (.ok "") "zzz"
      ⟨"t1", "invoice", ["number"]⟩ rfl

end Docflow
